import Mathlib

/-!
Verification of the compute-kernel dispatch runtime in
vendor/gioui.org/cpu/runtime.c (with layout constants from abi.h and the
interface in runtime.h).

The C code is shallowly embedded: every C struct becomes a Lean structure,
every function a Lean function.  C `unsigned int` / `size_t` / non-negative
`int` quantities are modelled as `Nat` (the C code is only defined while
allocation succeeds, which keeps all of these far below their wrap-around
points; signed overflow would be undefined behaviour, so all claims are read
on the inputs where the C program has defined behaviour).  Heap buffers are
modelled as functions from indices to `Option` values, `none` standing for
an uninitialized slot (fresh `malloc`/`realloc` memory) and for the NULL
pointer when the whole buffer is an `Option`.  Undefined behaviour that the
claims care about (memcpy to NULL, reading an uninitialized queue slot) is
made observable: the corresponding operations return `none` / set a fault
flag instead of producing a value.
-/

/-- Mirror of `struct coroutines` (runtime.c lines 19-26): a FIFO queue of
coroutine handles implemented as a circular buffer.  `routines` is the
backing allocation (slot `i` holds `none` while uninitialized), `start` and
`endI` (C `end`) are indices into it, `cap` is its capacity. -/
structure coroutines (α : Type) where
  routines : Nat → Option α
  start : Nat
  endI : Nat
  cap : Nat

/-- Zero-initialized `struct coroutines`, as produced by
`alloc_thread_context` / `free_thread_context` (runtime.c lines 124-137):
NULL buffer, `start = end = cap = 0`. -/
def coroutines_init {α : Type} : coroutines α :=
  { routines := fun _ => none, start := 0, endI := 0, cap := 0 }

/-- Mirror of `coroutines_push` (runtime.c lines 67-92).  The pre-check
`next == start` detects a full buffer before writing; the grow step doubles
the capacity (minimum 10), `realloc` preserves the old `cap` slots and
leaves the new ones indeterminate, and the `memmove` relocates the wrapped
elements `[0, end)` to `[cap, cap + end)` when `end < start`. -/
def coroutines_push {α : Type} (q : coroutines α) (r : α) : coroutines α :=
  let next := q.endI + 1
  let next := if q.cap ≤ next then 0 else next
  if next = q.start then
    let newcap := if q.cap * 2 < 10 then 10 else q.cap * 2
    let buf : Nat → Option α := fun i => if i < q.cap then q.routines i else none
    let be : (Nat → Option α) × Nat :=
      if q.endI < q.start then
        (fun i => if q.cap ≤ i ∧ i < q.cap + q.endI then buf (i - q.cap) else buf i,
         q.endI + q.cap)
      else
        (buf, q.endI)
    let next2 := (be.2 + 1) % newcap
    { routines := fun i => if i = be.2 then some r else be.1 i,
      start := q.start, endI := next2, cap := newcap }
  else
    { q with routines := fun i => if i = q.endI then some r else q.routines i,
             endI := next }

/-- Mirror of `coroutines_pop` (runtime.c lines 94-101).  Returns `none`
when the queue is empty (`start == end`, C `return 0`); otherwise returns
the slot at `start` (still an `Option`: `none` would be an uninitialized
read) together with the advanced queue. -/
def coroutines_pop {α : Type} (q : coroutines α) :
    Option (Option α × coroutines α) :=
  if q.start = q.endI then none
  else some (q.routines q.start, { q with start := (q.start + 1) % q.cap })

/-- Representation invariant on the circular-buffer indices: either the
queue is still in its zero-initialized state, or both indices are strictly
below the (positive) capacity. -/
def qInv {α : Type} (q : coroutines α) : Prop :=
  (q.cap = 0 ∧ q.start = 0 ∧ q.endI = 0) ∨ (q.start < q.cap ∧ q.endI < q.cap)

/-- Abstraction function: the logical FIFO content of the circular buffer,
oldest first.  When the content wraps around the physical end of the
buffer, it is the slots `[start, cap)` followed by `[0, end)`. -/
def qlist {α : Type} (q : coroutines α) : List (Option α) :=
  if q.start ≤ q.endI then
    (List.range' q.start (q.endI - q.start)).map q.routines
  else
    (List.range' q.start (q.cap - q.start)).map q.routines
      ++ (List.range' 0 q.endI).map q.routines

theorem qInv_init {α : Type} : qInv (coroutines_init (α := α)) := by
  left; exact ⟨rfl, rfl, rfl⟩

theorem qlist_init {α : Type} : qlist (coroutines_init (α := α)) = [] := rfl

theorem qlist_nil_iff {α : Type} (q : coroutines α) (h : qInv q) :
    qlist q = [] ↔ q.start = q.endI := by
  unfold qlist
  rcases h with ⟨hc, hs, he⟩ | ⟨hs, he⟩
  · simp [hs, he]
  · split
    · constructor
      · intro hl
        have := congrArg List.length hl
        simp at this
        omega
      · intro hl; simp [hl]
    · constructor
      · intro hl
        have := congrArg List.length hl
        simp at this
        omega
      · intro hl; omega

theorem qlist_length {α : Type} (q : coroutines α) (h : qInv q) :
    (qlist q).length = if q.start ≤ q.endI then q.endI - q.start
      else q.cap - q.start + q.endI := by
  unfold qlist
  split <;> simp

/-- A non-full queue under the invariant: the logical length is below the
capacity whenever the capacity is positive. -/
theorem qlist_length_lt_cap {α : Type} (q : coroutines α) (h : qInv q)
    (hc : 0 < q.cap) : (qlist q).length < q.cap := by
  rw [qlist_length q h]
  rcases h with ⟨hc0, _, _⟩ | ⟨hs, he⟩
  · omega
  · split <;> omega

theorem qInv_advance {α : Type} (q : coroutines α) (h : qInv q)
    (hne : q.start ≠ q.endI) :
    qInv { q with start := (q.start + 1) % q.cap } := by
  rcases h with ⟨hc, hs, he⟩ | ⟨hs, he⟩
  · exact absurd (hs.trans he.symm) hne
  · right
    exact ⟨Nat.mod_lt _ (by omega), he⟩

/-- Under the representation invariant, a queue with distinct indices has
the slot at `start` as the head of its logical content, and advancing
`start` modulo the capacity removes exactly that head. -/
theorem qlist_cons_of_ne {α : Type} (q : coroutines α) (h : qInv q)
    (hne : q.start ≠ q.endI) :
    qlist q = q.routines q.start ::
      qlist { q with start := (q.start + 1) % q.cap } := by
  rcases h with ⟨hc, hs, he⟩ | ⟨hs, he⟩
  · exact absurd (hs.trans he.symm) hne
  by_cases hle : q.start < q.endI
  · have h1 : (q.start + 1) % q.cap = q.start + 1 := Nat.mod_eq_of_lt (by omega)
    simp only [qlist, h1]
    rw [if_pos (by omega), if_pos (by (try simp only); omega)]
    have h2 : q.endI - q.start = (q.endI - (q.start + 1)) + 1 := by omega
    rw [h2, List.range'_succ]
    simp
  · have hlt : q.endI < q.start := by omega
    by_cases hcap : q.start + 1 = q.cap
    · have h1 : (q.start + 1) % q.cap = 0 := by rw [hcap]; exact Nat.mod_self _
      simp only [qlist, h1]
      rw [if_neg (by omega), if_pos (by (try simp only); omega)]
      have h2 : q.cap - q.start = 1 := by omega
      rw [h2]
      simp [List.range']
    · have h1 : (q.start + 1) % q.cap = q.start + 1 := Nat.mod_eq_of_lt (by omega)
      simp only [qlist, h1]
      rw [if_neg (by omega), if_neg (by (try simp only); omega)]
      have h2 : q.cap - q.start = (q.cap - (q.start + 1)) + 1 := by omega
      rw [h2, List.range'_succ]
      simp

/-- Specification of `coroutines_pop` on a non-empty queue: it returns the
oldest element, the capacity and contents are untouched, and the invariant
is preserved. -/
theorem coroutines_pop_cons {α : Type} (q : coroutines α) (h : qInv q)
    (a : Option α) (l : List (Option α)) (hq : qlist q = a :: l) :
    ∃ q', coroutines_pop q = some (a, q') ∧ qInv q' ∧ qlist q' = l ∧
      q'.cap = q.cap ∧ q'.endI = q.endI ∧ q'.routines = q.routines := by
  have hne : q.start ≠ q.endI := by
    intro hse
    rw [(qlist_nil_iff q h).mpr hse] at hq
    cases hq
  have hdec := qlist_cons_of_ne q h hne
  rw [hq] at hdec
  injection hdec with ha hl
  refine ⟨{ q with start := (q.start + 1) % q.cap }, ?_, qInv_advance q h hne,
    hl.symm, rfl, rfl, rfl⟩
  rw [coroutines_pop, if_neg hne, ha]

/-- Specification of `coroutines_pop` on an empty queue. -/
theorem coroutines_pop_nil {α : Type} (q : coroutines α) (h : qInv q)
    (hq : qlist q = []) : coroutines_pop q = none := by
  rw [coroutines_pop, if_pos ((qlist_nil_iff q h).mp hq)]

/-- Specification of `coroutines_push`: the invariant is preserved, the new
element is appended at the tail of the logical FIFO content (including
across the grow step, wrapped or not), `start` is unchanged, and the
capacity either stays or is doubled with a minimum of 10. -/
theorem coroutines_push_spec {α : Type} (q : coroutines α) (r : α)
    (h : qInv q) :
    qInv (coroutines_push q r) ∧
    qlist (coroutines_push q r) = qlist q ++ [some r] ∧
    (coroutines_push q r).start = q.start ∧
    q.cap ≤ (coroutines_push q r).cap ∧
    ((coroutines_push q r).cap = q.cap ∨
      (coroutines_push q r).cap = if q.cap * 2 < 10 then 10 else q.cap * 2) := by
  rcases h with ⟨hc, hs, he⟩ | ⟨hs, he⟩
  · -- zero-initialized queue: first push triggers the grow to capacity 10
    have hP : coroutines_push q r =
        { routines := fun i => if i = q.endI then some r else
            if i < q.cap then q.routines i else none,
          start := q.start, endI := 1, cap := 10 } := by
      rw [coroutines_push]
      simp [hc, hs, he]
    rw [hP]
    refine ⟨Or.inr (by (try simp only); omega), ?_,
      rfl, by (try simp only); omega, Or.inr (by (try simp only); simp [hc])⟩
    simp only [qlist, hc, hs, he]
    simp [List.range']
  by_cases hg : (if q.cap ≤ q.endI + 1 then 0 else q.endI + 1) = q.start
  · -- grow branch
    by_cases hw : q.endI < q.start
    · -- the logical queue wraps: memmove relocates [0, endI) to [cap, cap+endI)
      have hc1 : ¬ q.cap ≤ q.endI + 1 := by
        intro hcle
        rw [if_pos hcle] at hg
        omega
      have hse : q.endI + 1 = q.start := by rwa [if_neg hc1] at hg
      have hN : q.cap < (if q.cap * 2 < 10 then 10 else q.cap * 2) ∧
          q.cap + q.endI + 1 < (if q.cap * 2 < 10 then 10 else q.cap * 2) := by
        split <;> omega
      have hP : coroutines_push q r =
          { routines := fun i => if i = q.endI + q.cap then some r else
              if q.cap ≤ i ∧ i < q.cap + q.endI then
                (if i - q.cap < q.cap then q.routines (i - q.cap) else none)
              else (if i < q.cap then q.routines i else none),
            start := q.start, endI := q.endI + q.cap + 1,
            cap := if q.cap * 2 < 10 then 10 else q.cap * 2 } := by
        rw [coroutines_push]
        simp only [if_pos hg, if_pos hw]
        have hm : (q.endI + q.cap + 1) % (if q.cap * 2 < 10 then 10 else q.cap * 2) =
            q.endI + q.cap + 1 := Nat.mod_eq_of_lt (by omega)
        simp [hm]
      rw [hP]
      refine ⟨Or.inr ⟨by (try simp only); omega, by (try simp only); omega⟩, ?_,
        rfl, by (try simp only); omega, Or.inr rfl⟩
      simp only [qlist]
      rw [if_pos (by (try simp only); omega), if_neg (by (try simp only); omega)]
      have hlen : q.endI + q.cap + 1 - q.start = q.cap := by omega
      rw [hlen]
      have hsplit : List.range' q.start (q.cap - q.start) ++ List.range' q.cap q.start =
          List.range' q.start q.cap := by
        have hap := List.range'_append_1 q.start (q.cap - q.start) q.start
        rw [show q.start + (q.cap - q.start) = q.cap by omega] at hap
        first
        | exact hap
        | (rw [show q.cap - q.start + q.start = q.cap by omega] at hap; exact hap)
      rw [← hsplit, List.map_append]
      have hs2 : List.range' q.cap q.start =
          List.range' q.cap q.endI ++ [q.cap + q.endI] := by
        rw [← hse, List.range'_1_concat]
      rw [hs2, List.map_append]
      rw [List.append_assoc]
      congr 1
      · -- unwrapped part [start, cap) is preserved in place
        apply List.map_congr_left
        intro i hi
        rw [List.mem_range'] at hi
        obtain ⟨k, hk, rfl⟩ := hi
        rw [if_neg (by omega), if_neg (by omega), if_pos (by omega)]
      · congr 1
        · -- wrapped part [0, endI) was moved to [cap, cap+endI)
          rw [List.range'_eq_map_range 0 q.endI, List.range'_eq_map_range q.cap q.endI]
          rw [List.map_map, List.map_map]
          apply List.map_congr_left
          intro k hk
          rw [List.mem_range] at hk
          simp only [Function.comp]
          rw [if_neg (by omega), if_pos (by omega), if_pos (by omega)]
          congr 1
          omega
        · -- the pushed element lands at index cap + endI
          simp [show q.cap + q.endI = q.endI + q.cap by omega]
    · -- no wrap at grow time: start = 0, endI = cap - 1, realloc only
      have hc1 : q.cap ≤ q.endI + 1 := by
        by_contra hcle
        rw [if_neg hcle] at hg
        omega
      have hs0 : q.start = 0 := by rw [if_pos hc1] at hg; omega
      have he1 : q.endI = q.cap - 1 := by omega
      have hN : q.cap < (if q.cap * 2 < 10 then 10 else q.cap * 2) := by
        split <;> omega
      have hP : coroutines_push q r =
          { routines := fun i => if i = q.endI then some r else
              if i < q.cap then q.routines i else none,
            start := q.start, endI := q.endI + 1,
            cap := if q.cap * 2 < 10 then 10 else q.cap * 2 } := by
        rw [coroutines_push]
        simp only [if_pos hg, if_neg hw]
        have hm : (q.endI + 1) % (if q.cap * 2 < 10 then 10 else q.cap * 2) =
            q.endI + 1 := Nat.mod_eq_of_lt (by omega)
        simp [hm]
      rw [hP]
      refine ⟨Or.inr ⟨by (try simp only); omega, by (try simp only); omega⟩, ?_,
        rfl, by (try simp only); omega, Or.inr rfl⟩
      simp only [qlist]
      rw [if_pos (by (try simp only); omega), if_pos (by (try simp only); omega)]
      have h2 : q.endI + 1 - q.start = (q.endI - q.start) + 1 := by omega
      rw [h2, List.range'_1_concat, List.map_append]
      congr 1
      · apply List.map_congr_left
        intro i hi
        rw [List.mem_range'] at hi
        obtain ⟨k, hk, rfl⟩ := hi
        rw [if_neg (by omega), if_pos (by omega)]
      · simp [show q.start + (q.endI - q.start) = q.endI by omega]
  · -- no grow: plain write at endI and advance of endI
    have hP : coroutines_push q r =
        { q with routines := fun i => if i = q.endI then some r else q.routines i,
                 endI := if q.cap ≤ q.endI + 1 then 0 else q.endI + 1 } := by
      rw [coroutines_push]
      simp only [if_neg hg]
    rw [hP]
    by_cases h1 : q.cap ≤ q.endI + 1
    · -- endI wraps to 0; since 0 ≠ start the queue was not full
      rw [if_pos h1] at hg
      have hs0 : 0 < q.start := by omega
      have he1 : q.endI = q.cap - 1 := by omega
      refine ⟨Or.inr ⟨by (try simp only); omega,
          by (try simp only); rw [if_pos h1]; omega⟩, ?_,
        rfl, by (try simp only); omega, Or.inl rfl⟩
      simp only [qlist, if_pos h1]
      rw [if_neg (by (try simp only); omega), if_pos (by (try simp only); omega)]
      simp only [List.range'_zero, List.map_nil, List.append_nil]
      have h2 : q.cap - q.start = (q.endI - q.start) + 1 := by omega
      rw [h2, List.range'_1_concat, List.map_append]
      congr 1
      · apply List.map_congr_left
        intro i hi
        rw [List.mem_range'] at hi
        obtain ⟨k, hk, rfl⟩ := hi
        rw [if_neg (by omega)]
      · simp [show q.start + (q.endI - q.start) = q.endI by omega]
    · rw [if_neg h1] at hg
      have he1 : q.endI + 1 < q.cap := by omega
      by_cases hse : q.start ≤ q.endI
      · refine ⟨Or.inr ⟨by (try simp only); omega,
            by (try simp only); rw [if_neg h1]; omega⟩, ?_,
          rfl, by (try simp only); omega, Or.inl rfl⟩
        simp only [qlist, if_neg h1]
        rw [if_pos (by (try simp only); omega), if_pos (by (try simp only); omega)]
        have h2 : q.endI + 1 - q.start = (q.endI - q.start) + 1 := by omega
        rw [h2, List.range'_1_concat, List.map_append]
        congr 1
        · apply List.map_congr_left
          intro i hi
          rw [List.mem_range'] at hi
          obtain ⟨k, hk, rfl⟩ := hi
          rw [if_neg (by omega)]
        · simp [show q.start + (q.endI - q.start) = q.endI by omega]
      · have hlt : q.endI + 1 < q.start := by omega
        refine ⟨Or.inr ⟨by (try simp only); omega,
            by (try simp only); rw [if_neg h1]; omega⟩, ?_,
          rfl, by (try simp only); omega, Or.inl rfl⟩
        simp only [qlist, if_neg h1]
        rw [if_neg (by (try simp only); omega), if_neg (by (try simp only); omega)]
        rw [List.range'_1_concat, List.map_append, List.append_assoc]
        congr 1
        · apply List.map_congr_left
          intro i hi
          rw [List.mem_range'] at hi
          obtain ⟨k, hk, rfl⟩ := hi
          rw [if_neg (by omega)]
        · congr 1
          · apply List.map_congr_left
            intro i hi
            rw [List.mem_range'] at hi
            obtain ⟨k, hk, rfl⟩ := hi
            rw [if_neg (by omega)]
          · simp

/-- An operation on the coroutine queue: `coroutines_push` of a handle, or
`coroutines_pop`. -/
inductive QOp (α : Type) where
  | push (r : α)
  | pop

/-- Run a sequence of queue operations on the concrete circular buffer,
recording for every pop its outcome: `none` when the queue reported empty
(C `return 0`), `some v` when it returned slot value `v`. -/
def runOps {α : Type} :
    List (QOp α) → coroutines α × List (Option (Option α)) →
      coroutines α × List (Option (Option α))
  | [], acc => acc
  | QOp.push r :: ops, acc => runOps ops (coroutines_push acc.1 r, acc.2)
  | QOp.pop :: ops, acc =>
    match coroutines_pop acc.1 with
    | none => runOps ops (acc.1, acc.2 ++ [none])
    | some (v, q') => runOps ops (q', acc.2 ++ [some v])

/-- The abstract FIFO the circular buffer refines: a plain list, oldest
element first; push appends at the tail, pop removes the head. -/
def runAbs {α : Type} :
    List (QOp α) → List α × List (Option α) → List α × List (Option α)
  | [], acc => acc
  | QOp.push r :: ops, acc => runAbs ops (acc.1 ++ [r], acc.2)
  | QOp.pop :: ops, acc =>
    match acc.1 with
    | [] => runAbs ops (acc.1, acc.2 ++ [none])
    | a :: l => runAbs ops (l, acc.2 ++ [some a])

/-- Number of push operations in a sequence. -/
def countPushOps {α : Type} (ops : List (QOp α)) : Nat :=
  ops.countP (fun op => match op with | QOp.push _ => true | QOp.pop => false)

/-- Number of pop operations in a sequence (successful or not). -/
def countPopOps {α : Type} (ops : List (QOp α)) : Nat :=
  ops.countP (fun op => match op with | QOp.push _ => false | QOp.pop => true)

/-- Forward simulation: the concrete circular-buffer queue refines the
abstract list FIFO along any operation sequence, with identical pop
outcomes. -/
theorem runOps_sim {α : Type} (ops : List (QOp α)) (q : coroutines α)
    (l : List α) (outs : List (Option (Option α))) (aouts : List (Option α))
    (hq : qInv q) (hsim : qlist q = l.map some)
    (houts : outs = aouts.map (Option.map some)) :
    qInv (runOps ops (q, outs)).1 ∧
    qlist (runOps ops (q, outs)).1 = ((runAbs ops (l, aouts)).1).map some ∧
    (runOps ops (q, outs)).2 = ((runAbs ops (l, aouts)).2).map (Option.map some) := by
  induction ops generalizing q l outs aouts with
  | nil => exact ⟨hq, hsim, houts⟩
  | cons op ops ih =>
    cases op with
    | push r =>
      obtain ⟨h1, h2, _, _, _⟩ := coroutines_push_spec q r hq
      rw [runOps, runAbs]
      exact ih (coroutines_push q r) (l ++ [r]) outs aouts h1
        (by rw [h2, hsim, List.map_append]; rfl) houts
    | pop =>
      cases l with
      | nil =>
        have hnone := coroutines_pop_nil q hq (by simp [hsim])
        rw [runOps, runAbs]
        simp only [hnone]
        exact ih q [] (outs ++ [none]) (aouts ++ [none]) hq hsim
          (by rw [houts, List.map_append]; rfl)
      | cons a l' =>
        obtain ⟨q', hpop, hq', hql', _, _, _⟩ :=
          coroutines_pop_cons q hq (some a) (l'.map some) (by simp [hsim])
        rw [runOps, runAbs]
        simp only [hpop]
        exact ih q' l' (outs ++ [some (some a)]) (aouts ++ [some a]) hq' hql'
          (by rw [houts, List.map_append]; rfl)

/-- Balance equation for the abstract FIFO: the final backlog plus the
number of successful pops equals the initial backlog plus the number of
pushes. -/
theorem runAbs_balance {α : Type} (ops : List (QOp α)) (l : List α)
    (aouts : List (Option α)) :
    ((runAbs ops (l, aouts)).1).length +
      ((runAbs ops (l, aouts)).2).countP (fun v => v.isSome) =
    l.length + aouts.countP (fun v => v.isSome) + countPushOps ops := by
  induction ops generalizing l aouts with
  | nil => simp [runAbs, countPushOps]
  | cons op ops ih =>
    cases op with
    | push r =>
      rw [runAbs]
      have := ih (l ++ [r]) aouts
      simp only [countPushOps, List.countP_cons] at this ⊢
      simp at this ⊢
      omega
    | pop =>
      cases l with
      | nil =>
        rw [runAbs]
        have := ih [] (aouts ++ [none])
        simp only [countPushOps, List.countP_cons] at this ⊢
        simp [List.countP_append] at this ⊢
        omega
      | cons a l' =>
        rw [runAbs]
        have := ih l' (aouts ++ [some a])
        simp only [countPushOps, List.countP_cons] at this ⊢
        simp [List.countP_append] at this ⊢
        omega

/-- The queue obtained by running an operation sequence from the
zero-initialized queue. -/
def runQueue {α : Type} (ops : List (QOp α)) : coroutines α :=
  (runOps ops (coroutines_init, [])).1

/-- The recorded pop outcomes of running an operation sequence from the
zero-initialized queue. -/
def runQueueOuts {α : Type} (ops : List (QOp α)) : List (Option (Option α)) :=
  (runOps ops (coroutines_init, [])).2

/-- Claim C3, counterexample to the literal statement: in the sequence
"pop (on the empty queue), then push", there are N = 1 push calls and
N = 1 pop calls, yet afterwards the queue is not empty
(`start = 0 ≠ 1 = end`), because the pop came before the push and returned
empty.  The emptiness part of the claim only holds when the N pops are
successful pops. -/
theorem coroutines_count_counterexample :
    countPushOps [QOp.pop, QOp.push (0 : Nat)] = 1 ∧
    countPopOps [QOp.pop, QOp.push (0 : Nat)] = 1 ∧
    ¬ (runQueue [QOp.pop, QOp.push (0 : Nat)]).start =
        (runQueue [QOp.pop, QOp.push (0 : Nat)]).endI := by
  refine ⟨rfl, rfl, ?_⟩
  decide

/-- Claim C3 (amended: the N pops that leave the queue empty are the
successful ones): the circular-buffer queue refines the abstract list
FIFO — pop outcomes equal those of the abstract FIFO (each successful pop
returns the oldest not-yet-popped element, so pop order equals push
order), the final buffer content is the abstract backlog (so the grow step,
wrapped or not, preserved all enqueued-but-unpopped elements in order), and
after N pushes and N successful pops the queue is empty (start = end). -/
theorem coroutines_fifo_refinement {α : Type} (ops : List (QOp α)) :
    qInv (runQueue ops) ∧
    qlist (runQueue ops) = ((runAbs ops ([], [])).1).map some ∧
    runQueueOuts ops = ((runAbs ops ([], [])).2).map (Option.map some) ∧
    (countPushOps ops = (runQueueOuts ops).countP (fun v => v.isSome) →
      (runQueue ops).start = (runQueue ops).endI) := by
  obtain ⟨h1, h2, h3⟩ := runOps_sim ops coroutines_init [] [] []
    qInv_init (by simp [qlist_init]) rfl
  refine ⟨h1, h2, h3, ?_⟩
  intro hcnt
  have hsucc : ((runOps ops ((coroutines_init : coroutines α), [])).2).countP
      (fun v => v.isSome) =
      ((runAbs ops (([] : List α), [])).2).countP (fun v => v.isSome) := by
    rw [h3, List.countP_map]
    congr 1
    funext v
    cases v <;> rfl
  have hbal := runAbs_balance ops ([] : List α) []
  have hlen0 : ((runAbs ops (([] : List α), [])).1).length = 0 := by
    simp only [List.length_nil, List.countP_nil] at hbal
    rw [runQueueOuts] at hcnt
    omega
  have habs : (runAbs ops (([] : List α), [])).1 = [] :=
    List.length_eq_zero.mp hlen0
  apply (qlist_nil_iff _ h1).mp
  rw [h2, habs]
  rfl

/-- Claim C4: the representation invariant holds in every state reachable
from the zero-initialized queue, push never decreases the capacity (when it
grows, it doubles with a minimum of 10), pop preserves capacity and `end`,
the indices are strictly below the capacity whenever it is nonzero,
`start = end` holds exactly on the empty queue, and the queue is never
full (at least one slot stays unoccupied when the capacity is nonzero). -/
theorem coroutines_invariant_preserved {α : Type} (ops : List (QOp α)) :
    qInv (runQueue ops) ∧
    (∀ r : α, (runQueue ops).cap ≤ (coroutines_push (runQueue ops) r).cap ∧
      ((coroutines_push (runQueue ops) r).cap = (runQueue ops).cap ∨
        (coroutines_push (runQueue ops) r).cap =
          if (runQueue ops).cap * 2 < 10 then 10 else (runQueue ops).cap * 2)) ∧
    (∀ v q', coroutines_pop (runQueue ops) = some (v, q') →
      q'.cap = (runQueue ops).cap) ∧
    (0 < (runQueue ops).cap →
      (runQueue ops).start < (runQueue ops).cap ∧
      (runQueue ops).endI < (runQueue ops).cap) ∧
    ((runQueue ops).start = (runQueue ops).endI ↔ qlist (runQueue ops) = []) ∧
    (0 < (runQueue ops).cap → (qlist (runQueue ops)).length < (runQueue ops).cap) := by
  obtain ⟨h1, h2, h3⟩ := runOps_sim ops coroutines_init [] [] []
    qInv_init (by simp [qlist_init]) rfl
  have h1' : qInv (runQueue ops) := h1
  refine ⟨h1', ?_, ?_, ?_, ?_, ?_⟩
  · intro r
    obtain ⟨_, _, _, hc1, hc2⟩ := coroutines_push_spec (runQueue ops) r h1'
    exact ⟨hc1, hc2⟩
  · intro v q' hpop
    rw [coroutines_pop] at hpop
    split at hpop
    · simp at hpop
    · simp only [Option.some.injEq, Prod.mk.injEq] at hpop
      rw [← hpop.2]
  · intro hc
    rcases h1' with ⟨hc0, _, _⟩ | hb
    · omega
    · exact hb
  · exact (qlist_nil_iff _ h1').symm
  · exact qlist_length_lt_cap _ h1'

/-- The flattened workgroup indices visited by the loop
`for (int i = thread_idx; i < ngroups; i += ctx->nthreads)` in
`dispatch_thread` (runtime.c line 219), in visit order.  The extra `fuel`
argument bounds the number of iterations so the function is total; `ngroups`
iterations always suffice when `nthreads ≥ 1`. -/
def stridedFrom (nthreads ngroups : Nat) : Nat → Nat → List Nat
  | _, 0 => []
  | i, fuel + 1 =>
    if i < ngroups then i :: stridedFrom nthreads ngroups (i + nthreads) fuel
    else []

/-- The workgroup indices processed by thread `thread_idx` of `nthreads`
over a flattened grid of `ngroups` workgroups. -/
def assigned (thread_idx nthreads ngroups : Nat) : List Nat :=
  stridedFrom nthreads ngroups thread_idx ngroups

theorem stridedFrom_mem (T n : Nat) (hT : 1 ≤ T) :
    ∀ fuel i j, n ≤ i + fuel →
      (j ∈ stridedFrom T n i fuel ↔ i ≤ j ∧ j < n ∧ j % T = i % T) := by
  intro fuel
  induction fuel with
  | zero =>
    intro i j hfuel
    simp only [stridedFrom, List.not_mem_nil, false_iff]
    omega
  | succ fuel ih =>
    intro i j hfuel
    rw [stridedFrom]
    split
    · rw [List.mem_cons, ih (i + T) j (by omega)]
      constructor
      · rintro (rfl | ⟨hij, hjn, hmod⟩)
        · exact ⟨Nat.le_refl _, by omega, rfl⟩
        · exact ⟨by omega, hjn, by rw [hmod, Nat.add_mod_right]⟩
      · rintro ⟨hij, hjn, hmod⟩
        rcases Nat.eq_or_lt_of_le hij with rfl | hlt
        · exact Or.inl rfl
        · right
          refine ⟨?_, hjn, by rw [hmod, Nat.add_mod_right]⟩
          have hdvd : T ∣ j - i :=
            (Nat.modEq_iff_dvd' (Nat.le_of_lt hlt)).mp
              (show i ≡ j [MOD T] from hmod.symm)
          have := Nat.le_of_dvd (by omega) hdvd
          omega
    · simp only [List.not_mem_nil, false_iff]
      omega

theorem stridedFrom_lower (T n : Nat) :
    ∀ fuel i j, j ∈ stridedFrom T n i fuel → i ≤ j := by
  intro fuel
  induction fuel with
  | zero =>
    intro i j hj
    simp [stridedFrom] at hj
  | succ fuel ih =>
    intro i j hj
    rw [stridedFrom] at hj
    split at hj
    · rcases List.mem_cons.mp hj with rfl | hj'
      · exact Nat.le_refl _
      · have := ih (i + T) j hj'
        omega
    · simp at hj

theorem stridedFrom_sorted (T n : Nat) (hT : 1 ≤ T) :
    ∀ fuel i, List.Pairwise (· < ·) (stridedFrom T n i fuel) := by
  intro fuel
  induction fuel with
  | zero =>
    intro i
    simp [stridedFrom]
  | succ fuel ih =>
    intro i
    rw [stridedFrom]
    split
    · refine List.Pairwise.cons ?_ (ih (i + T))
      intro j hj
      have := stridedFrom_lower T n fuel (i + T) j hj
      omega
    · exact List.Pairwise.nil

/-- Membership characterization of a thread's assigned workgroups when the
thread index is below the thread count: exactly the indices in
`[0, ngroups)` congruent to the thread index modulo the thread count. -/
theorem assigned_mem (t T n : Nat) (hT : 1 ≤ T) (ht : t < T) (j : Nat) :
    j ∈ assigned t T n ↔ j < n ∧ j % T = t := by
  rw [assigned, stridedFrom_mem T n hT n t j (by omega)]
  constructor
  · rintro ⟨_, hjn, hmod⟩
    exact ⟨hjn, by rw [hmod, Nat.mod_eq_of_lt ht]⟩
  · rintro ⟨hjn, hmod⟩
    refine ⟨?_, hjn, by rw [hmod, Nat.mod_eq_of_lt ht]⟩
    have := Nat.mod_le j T
    omega

theorem assigned_nodup (t T n : Nat) (hT : 1 ≤ T) :
    (assigned t T n).Nodup :=
  (stridedFrom_sorted T n hT n t).imp Nat.ne_of_lt

theorem assigned_length (t T n : Nat) (hT : 1 ≤ T) (ht : t < T) :
    (assigned t T n).length =
      ((List.range n).filter (fun i => i % T == t)).length := by
  apply List.Perm.length_eq
  rw [List.perm_ext_iff_of_nodup (assigned_nodup t T n hT)
    (List.Nodup.filter _ (List.nodup_range n))]
  intro j
  rw [assigned_mem t T n hT ht j, List.mem_filter, List.mem_range]
  simp

theorem sum_filter_mod (T n : Nat) (hT : 1 ≤ T) :
    ∑ t ∈ Finset.range T,
      ((List.range n).filter (fun i => i % T == t)).length = n := by
  induction n with
  | zero => simp
  | succ n ih =>
    have hstep : ∀ t, ((List.range (n + 1)).filter (fun i => i % T == t)).length =
        ((List.range n).filter (fun i => i % T == t)).length +
          (if n % T = t then 1 else 0) := by
      intro t
      rw [List.range_succ, List.filter_append, List.length_append]
      congr 1
      by_cases hmt : n % T = t
      · simp [hmt]
      · have hb : (n % T == t) = false := by simp [hmt]
        simp [List.filter, hb, hmt]
    simp only [hstep]
    rw [Finset.sum_add_distrib, ih]
    have hone : ∑ t ∈ Finset.range T, (if n % T = t then 1 else 0) = 1 := by
      rw [Finset.sum_ite_eq]
      simp [Nat.mod_lt n hT]
    omega

/-- Sum over all thread indices of the number of assigned workgroups: the
strided partition covers each of the `ngroups` workgroups exactly once. -/
theorem assigned_length_sum (T n : Nat) (hT : 1 ≤ T) :
    ∑ t ∈ Finset.range T, (assigned t T n).length = n := by
  rw [Finset.sum_congr rfl (fun t ht => assigned_length t T n hT
    (Finset.mem_range.mp ht))]
  exact sum_filter_mod T n hT

/-- Mirror of the flattened-index decomposition in `dispatch_thread`
(runtime.c lines 220-225): `z = i / (sx*sy); group_id -= z*sx*sy;
y = group_id / sx; group_id -= y*sx; x = group_id`, returned as
`(x, y, z)`. -/
def decompose (sx sy i : Nat) : Nat × Nat × Nat :=
  let group_id := i
  let z := group_id / (sx * sy)
  let group_id := group_id - z * sx * sy
  let y := group_id / sx
  let group_id := group_id - y * sx
  (group_id, y, z)

theorem decompose_eq_mod_div (sx sy i : Nat) :
    decompose sx sy i = (i % sx, i / sx % sy, i / (sx * sy)) := by
  have h1 : i - i / (sx * sy) * sx * sy = i % (sx * sy) := by
    have hdm := Nat.div_add_mod i (sx * sy)
    have hr : i / (sx * sy) * sx * sy = sx * sy * (i / (sx * sy)) := by ring
    omega
  have h3 : ∀ m : Nat, m - m / sx * sx = m % sx := by
    intro m
    have hdm := Nat.div_add_mod m sx
    have hr : m / sx * sx = sx * (m / sx) := by ring
    omega
  simp only [decompose, h1, h3]
  refine congrArg₂ Prod.mk ?_ (congrArg₂ Prod.mk ?_ rfl)
  · rw [Nat.mod_mod_of_dvd i ⟨sy, rfl⟩]
  · rw [Nat.mod_mul_right_div_self]

/-- Claim C5: thread `t` of `T` processes exactly the flattened indices
congruent to `t` modulo `T` within `[0, sx*sy*sz)`, in increasing order;
each such index decomposes as `x = i mod sx`, `y = (i div sx) mod sy`,
`z = i div (sx*sy)` with `x + sx*y + sx*sy*z = i`, `x < sx`, `y < sy`;
and over all thread indices the assigned sets are pairwise disjoint and
cover `[0, sx*sy*sz)`. -/
theorem dispatch_partition_decompose (sx sy sz T t : Nat)
    (hT : 1 ≤ T) (ht : t < T) :
    (∀ j, j ∈ assigned t T (sx * sy * sz) ↔ j < sx * sy * sz ∧ j % T = t) ∧
    List.Pairwise (· < ·) (assigned t T (sx * sy * sz)) ∧
    (∀ i, i ∈ assigned t T (sx * sy * sz) →
      decompose sx sy i = (i % sx, i / sx % sy, i / (sx * sy)) ∧
      i % sx + sx * (i / sx % sy) + sx * sy * (i / (sx * sy)) = i ∧
      i % sx < sx ∧ i / sx % sy < sy) ∧
    (∀ t1 t2 i, t1 < T → t2 < T → i ∈ assigned t1 T (sx * sy * sz) →
      i ∈ assigned t2 T (sx * sy * sz) → t1 = t2) ∧
    (∀ i, i < sx * sy * sz → ∃ u, u < T ∧ i ∈ assigned u T (sx * sy * sz)) := by
  refine ⟨fun j => assigned_mem t T (sx * sy * sz) hT ht j,
    stridedFrom_sorted T (sx * sy * sz) hT (sx * sy * sz) t, ?_, ?_, ?_⟩
  · intro i hi
    have hin := (assigned_mem t T (sx * sy * sz) hT ht i).mp hi
    have hsx : 0 < sx := by
      rcases Nat.eq_zero_or_pos sx with h0 | h
      · rw [h0] at hin; simp at hin
      · exact h
    have hsy : 0 < sy := by
      rcases Nat.eq_zero_or_pos sy with h0 | h
      · rw [h0] at hin; simp at hin
      · exact h
    refine ⟨decompose_eq_mod_div sx sy i, ?_, Nat.mod_lt i hsx,
      Nat.mod_lt _ hsy⟩
    have d1 := Nat.div_add_mod i sx
    have d2 := Nat.div_add_mod (i / sx) sy
    have d3 : i / sx / sy = i / (sx * sy) := Nat.div_div_eq_div_mul i sx sy
    have key : sx * sy * (i / (sx * sy)) + sx * (i / sx % sy) = sx * (i / sx) := by
      calc sx * sy * (i / (sx * sy)) + sx * (i / sx % sy)
          = sx * (sy * (i / (sx * sy)) + i / sx % sy) := by ring
        _ = sx * (sy * (i / sx / sy) + i / sx % sy) := by rw [d3]
        _ = sx * (i / sx) := by rw [d2]
    omega
  · intro t1 t2 i ht1 ht2 h1 h2
    have m1 := ((assigned_mem t1 T (sx * sy * sz) hT ht1 i).mp h1).2
    have m2 := ((assigned_mem t2 T (sx * sy * sz) hT ht2 i).mp h2).2
    omega
  · intro i hi
    refine ⟨i % T, Nat.mod_lt i hT, ?_⟩
    exact (assigned_mem (i % T) T (sx * sy * sz) hT (Nat.mod_lt i hT) i).mpr
      ⟨hi, rfl⟩

/-- Witness for `dispatch_partition_decompose` at
`sx = sy = sz = 2`, `T = 3`, `t = 1`. -/
theorem dispatch_partition_decompose_witness :
    1 ≤ 3 ∧ 1 < 3 ∧
    ((∀ j, j ∈ assigned 1 3 (2 * 2 * 2) ↔ j < 2 * 2 * 2 ∧ j % 3 = 1) ∧
    List.Pairwise (· < ·) (assigned 1 3 (2 * 2 * 2)) ∧
    (∀ i, i ∈ assigned 1 3 (2 * 2 * 2) →
      decompose 2 2 i = (i % 2, i / 2 % 2, i / (2 * 2)) ∧
      i % 2 + 2 * (i / 2 % 2) + 2 * 2 * (i / (2 * 2)) = i ∧
      i % 2 < 2 ∧ i / 2 % 2 < 2) ∧
    (∀ t1 t2 i, t1 < 3 → t2 < 3 → i ∈ assigned t1 3 (2 * 2 * 2) →
      i ∈ assigned t2 3 (2 * 2 * 2) → t1 = t2) ∧
    (∀ i, i < 2 * 2 * 2 → ∃ u, u < 3 ∧ i ∈ assigned u 3 (2 * 2 * 2))) :=
  ⟨by decide, by decide,
    dispatch_partition_decompose 2 2 2 3 1 (by decide) (by decide)⟩

/-- The fixed SIMD width of the runtime (abi.h line 34). -/
def SIMD_WIDTH : Nat := 4

/-- Mirror of `struct program_info` (runtime.h lines 6-20).  The entry
points `begin`, `await`, `destroy` are opaque function pointers; they are
modelled as opaque numeric identifiers here (their behaviour is modelled
separately for the dispatch-execution claims). -/
structure program_info where
  min_memory_size : Nat
  has_cbarriers : Bool
  desc_set_size : Nat
  workgroup_size_x : Nat
  workgroup_size_y : Nat
  workgroup_size_z : Nat
  begin : Nat
  await : Nat
  destroy : Nat

/-- Mirror of `struct program_data` (abi.h lines 63-74).  Pointer-typed
slots hold the modelled contents of the pointed-to buffer (`none` = NULL);
the `uint4` arrays are index functions on `Fin 4`. -/
@[ext]
structure program_data where
  descriptor_sets : Fin 4 → Option (Nat → Option Nat)
  descriptor_dynamic_offsets : Fin 12 → Nat
  num_workgroups : Fin 4 → Nat
  workgroup_size : Fin 4 → Nat
  invocations_per_subgroup : Nat
  subgroups_per_workgroup : Nat
  invocations_per_workgroup : Nat
  push_constants : Fin 128 → Nat
  constants : Option Nat

/-- Mirror of `struct dispatch_context` (runtime.c lines 28-42). -/
@[ext]
structure dispatch_context where
  descriptor_set : Option (Nat → Option Nat)
  desc_set_size : Nat
  nthreads : Nat
  has_cbarriers : Bool
  memory_size : Nat
  begin : Nat
  await : Nat
  destroy : Nat
  data : program_data

/-- Zero-initialized `struct program_data` (part of the `{ 0 }` clear in
`alloc_dispatch_context`). -/
def program_data_init : program_data :=
  { descriptor_sets := fun _ => none,
    descriptor_dynamic_offsets := fun _ => 0,
    num_workgroups := fun _ => 0,
    workgroup_size := fun _ => 0,
    invocations_per_subgroup := 0,
    subgroups_per_workgroup := 0,
    invocations_per_workgroup := 0,
    push_constants := fun _ => 0,
    constants := none }

/-- Mirror of `alloc_dispatch_context` (runtime.c lines 110-115): a freshly
allocated, zero-initialized context. -/
def alloc_dispatch_context : dispatch_context :=
  { descriptor_set := none, desc_set_size := 0, nthreads := 0,
    has_cbarriers := false, memory_size := 0, begin := 0, await := 0,
    destroy := 0, data := program_data_init }

/-- Mirror of `free_dispatch_context` (runtime.c lines 117-122): frees and
nulls `descriptor_set` but leaves every other field, including
`desc_set_size`, untouched. -/
def free_dispatch_context (c : dispatch_context) : dispatch_context :=
  { c with descriptor_set := none }

/-- The context state written by `prepare_dispatch` (runtime.c lines
176-196) once the descriptor-set storage `ds` of recorded size `sz` is in
place: entry points, flags, thread count and memory size are copied from
`info`, and the `program_data` geometry fields are filled in, with
`invocations_per_subgroup = SIMD_WIDTH` and `subgroups_per_workgroup` the
rounded-up quotient (line 178). -/
def prepare_result (ctx : dispatch_context) (nthreads : Nat)
    (info : program_info) (ngroupx ngroupy ngroupz : Nat)
    (ds : Option (Nat → Option Nat)) (sz : Nat) : dispatch_context :=
  let invocations_per_subgroup := SIMD_WIDTH
  let invocations_per_workgroup :=
    info.workgroup_size_x * info.workgroup_size_y * info.workgroup_size_z
  let subgroups_per_workgroup :=
    (invocations_per_workgroup + invocations_per_subgroup - 1) /
      invocations_per_subgroup
  { descriptor_set := ds, desc_set_size := sz,
    has_cbarriers := info.has_cbarriers,
    begin := info.begin, await := info.await, destroy := info.destroy,
    nthreads := nthreads, memory_size := info.min_memory_size,
    data := { ctx.data with
      workgroup_size := fun j =>
        if j = 0 then info.workgroup_size_x
        else if j = 1 then info.workgroup_size_y
        else if j = 2 then info.workgroup_size_z
        else ctx.data.workgroup_size j,
      num_workgroups := fun j =>
        if j = 0 then ngroupx
        else if j = 1 then ngroupy
        else if j = 2 then ngroupz
        else ctx.data.num_workgroups j,
      invocations_per_subgroup := invocations_per_subgroup,
      invocations_per_workgroup := invocations_per_workgroup,
      subgroups_per_workgroup := subgroups_per_workgroup,
      descriptor_sets := fun j =>
        if j = 0 then ds else ctx.data.descriptor_sets j } }

/-- Mirror of `prepare_dispatch` (runtime.c lines 166-197).  The
descriptor-set storage is reallocated only when the program needs more than
the recorded size (lines 167-173); then `memcpy` copies
`info->desc_set_size` bytes from the caller's `desc_set` into it
(line 174).  A copy of a positive number of bytes into a NULL
`descriptor_set` is undefined behaviour and returns `none`; a zero-length
copy is treated as a no-op.  All remaining fields are recomputed from the
arguments (lines 176-196), with `invocations_per_subgroup = SIMD_WIDTH = 4`
and `subgroups_per_workgroup` the rounded-up quotient. -/
def prepare_dispatch (ctx : dispatch_context) (nthreads : Nat)
    (info : program_info) (desc_set : Nat → Nat)
    (ngroupx ngroupy ngroupz : Nat) : Option dispatch_context :=
  let grown := ctx.desc_set_size < info.desc_set_size
  let sz := if grown then info.desc_set_size else ctx.desc_set_size
  let ds0 : Option (Nat → Option Nat) :=
    if grown then some (fun _ => none) else ctx.descriptor_set
  let dsOpt : Option (Option (Nat → Option Nat)) :=
    match ds0 with
    | some buf =>
      some (some (fun i => if i < info.desc_set_size then some (desc_set i)
        else buf i))
    | none => if info.desc_set_size = 0 then some none else none
  match dsOpt with
  | none => none
  | some ds => some (prepare_result ctx nthreads info ngroupx ngroupy ngroupz ds sz)

theorem prepare_result_desc_set_size (ctx : dispatch_context) (n : Nat)
    (info : program_info) (gx gy gz : Nat) (ds : Option (Nat → Option Nat))
    (sz : Nat) :
    (prepare_result ctx n info gx gy gz ds sz).desc_set_size = sz := rfl

theorem prepare_result_descriptor_set (ctx : dispatch_context) (n : Nat)
    (info : program_info) (gx gy gz : Nat) (ds : Option (Nat → Option Nat))
    (sz : Nat) :
    (prepare_result ctx n info gx gy gz ds sz).descriptor_set = ds := rfl

/-- Re-applying `prepare_result` with the same arguments is the identity:
the field writes of `prepare_dispatch` are oblivious to the previous
context state except for `program_data` slots with index 3, which the
first application already left untouched. -/
theorem prepare_result_idem (ctx : dispatch_context) (n : Nat)
    (info : program_info) (gx gy gz : Nat) (ds : Option (Nat → Option Nat))
    (sz : Nat) :
    prepare_result (prepare_result ctx n info gx gy gz ds sz)
        n info gx gy gz ds sz =
      prepare_result ctx n info gx gy gz ds sz := by
  unfold prepare_result
  ext1
  all_goals try rfl
  ext1
  all_goals try rfl
  · funext j
    fin_cases j <;> rfl
  · funext j
    fin_cases j <;> rfl
  · funext j
    fin_cases j <;> rfl

theorem prepare_dispatch_grow (ctx : dispatch_context) (n : Nat)
    (info : program_info) (desc_set : Nat → Nat) (gx gy gz : Nat)
    (h : ctx.desc_set_size < info.desc_set_size) :
    prepare_dispatch ctx n info desc_set gx gy gz =
      some (prepare_result ctx n info gx gy gz
        (some (fun i => if i < info.desc_set_size then some (desc_set i)
          else none))
        info.desc_set_size) := by
  rw [prepare_dispatch]
  simp only [if_pos h]

theorem prepare_dispatch_keep_some (ctx : dispatch_context) (n : Nat)
    (info : program_info) (desc_set : Nat → Nat) (gx gy gz : Nat)
    (buf : Nat → Option Nat)
    (h : ¬ ctx.desc_set_size < info.desc_set_size)
    (hds : ctx.descriptor_set = some buf) :
    prepare_dispatch ctx n info desc_set gx gy gz =
      some (prepare_result ctx n info gx gy gz
        (some (fun i => if i < info.desc_set_size then some (desc_set i)
          else buf i))
        ctx.desc_set_size) := by
  rw [prepare_dispatch]
  simp only [if_neg h, hds]

theorem prepare_dispatch_keep_none (ctx : dispatch_context) (n : Nat)
    (info : program_info) (desc_set : Nat → Nat) (gx gy gz : Nat)
    (h : ¬ ctx.desc_set_size < info.desc_set_size)
    (hds : ctx.descriptor_set = none) (hsz : info.desc_set_size = 0) :
    prepare_dispatch ctx n info desc_set gx gy gz =
      some (prepare_result ctx n info gx gy gz none ctx.desc_set_size) := by
  rw [prepare_dispatch]
  simp only [if_neg h, hds, if_pos hsz]

theorem prepare_dispatch_fault (ctx : dispatch_context) (n : Nat)
    (info : program_info) (desc_set : Nat → Nat) (gx gy gz : Nat)
    (h : ¬ ctx.desc_set_size < info.desc_set_size)
    (hds : ctx.descriptor_set = none) (hsz : info.desc_set_size ≠ 0) :
    prepare_dispatch ctx n info desc_set gx gy gz = none := by
  rw [prepare_dispatch]
  simp only [if_neg h, hds, if_neg hsz]

/-- Claim C6: `prepare_dispatch` reallocates the descriptor-set storage
only when the program's `desc_set_size` strictly exceeds the recorded
capacity, so the recorded capacity becomes the maximum of the old capacity
and the required size (in particular it never decreases); after every
successful call the first `desc_set_size` bytes of the storage equal the
caller-supplied bytes verbatim; and when no growth is needed the old buffer
is reused, its bytes beyond the copied prefix untouched. -/
theorem prepare_descriptor_storage (ctx : dispatch_context) (n : Nat)
    (info : program_info) (desc_set : Nat → Nat) (gx gy gz : Nat)
    (ctx' : dispatch_context)
    (h : prepare_dispatch ctx n info desc_set gx gy gz = some ctx') :
    ctx'.desc_set_size = max ctx.desc_set_size info.desc_set_size ∧
    ctx.desc_set_size ≤ ctx'.desc_set_size ∧
    (∀ i, i < info.desc_set_size →
      Option.map (fun b => b i) ctx'.descriptor_set =
        some (some (desc_set i))) ∧
    (info.desc_set_size ≤ ctx.desc_set_size →
      ctx'.desc_set_size = ctx.desc_set_size ∧
      ∀ buf0, ctx.descriptor_set = some buf0 →
        ctx'.descriptor_set = some (fun i =>
          if i < info.desc_set_size then some (desc_set i) else buf0 i)) := by
  by_cases hg : ctx.desc_set_size < info.desc_set_size
  · rw [prepare_dispatch_grow ctx n info desc_set gx gy gz hg] at h
    injection h with h
    subst h
    refine ⟨by rw [prepare_result_desc_set_size]; omega,
      by rw [prepare_result_desc_set_size]; omega, ?_, fun habs => absurd habs (by omega)⟩
    intro i hi
    rw [prepare_result_descriptor_set]
    simp [hi]
  · cases hds : ctx.descriptor_set with
    | some buf =>
      rw [prepare_dispatch_keep_some ctx n info desc_set gx gy gz buf hg hds] at h
      injection h with h
      subst h
      refine ⟨by rw [prepare_result_desc_set_size]; omega,
        by rw [prepare_result_desc_set_size], ?_, ?_⟩
      · intro i hi
        rw [prepare_result_descriptor_set]
        simp [hi]
      · intro _
        refine ⟨prepare_result_desc_set_size _ _ _ _ _ _ _ _, ?_⟩
        intro buf0 hbuf0
        have hbb : buf = buf0 := Option.some.inj hbuf0
        subst hbb
        rw [prepare_result_descriptor_set]
    | none =>
      by_cases hsz : info.desc_set_size = 0
      · rw [prepare_dispatch_keep_none ctx n info desc_set gx gy gz hg hds hsz] at h
        injection h with h
        subst h
        refine ⟨by rw [prepare_result_desc_set_size]; omega,
          by rw [prepare_result_desc_set_size], by intro i hi; omega, ?_⟩
        intro _
        refine ⟨prepare_result_desc_set_size _ _ _ _ _ _ _ _, ?_⟩
        intro buf0 hbuf0
        cases hbuf0
      · rw [prepare_dispatch_fault ctx n info desc_set gx gy gz hg hds hsz] at h
        cases h

/-- Claim C7: `prepare_dispatch` is idempotent — after a successful call,
calling it again on the resulting context with the same thread count,
program info, descriptor-set bytes and grid succeeds and leaves the
modelled context state (every scalar field, every `program_data` field and
the descriptor-set contents) exactly as it was; only the pointer identity
of the reused or reallocated C buffer can differ, which the model does not
distinguish. -/
theorem prepare_idempotent (ctx : dispatch_context) (n : Nat)
    (info : program_info) (desc_set : Nat → Nat) (gx gy gz : Nat)
    (ctx' : dispatch_context)
    (h : prepare_dispatch ctx n info desc_set gx gy gz = some ctx') :
    prepare_dispatch ctx' n info desc_set gx gy gz = some ctx' := by
  by_cases hg : ctx.desc_set_size < info.desc_set_size
  · rw [prepare_dispatch_grow ctx n info desc_set gx gy gz hg] at h
    injection h with h
    subst h
    rw [prepare_dispatch_keep_some _ n info desc_set gx gy gz
      (fun i => if i < info.desc_set_size then some (desc_set i) else none)
      (by rw [prepare_result_desc_set_size]; omega)
      (prepare_result_descriptor_set _ _ _ _ _ _ _ _)]
    rw [prepare_result_desc_set_size]
    have hbuf : (fun i => if i < info.desc_set_size then some (desc_set i)
        else (fun i => if i < info.desc_set_size then some (desc_set i)
          else none) i) =
        (fun i => if i < info.desc_set_size then some (desc_set i)
          else none) := by
      funext i
      by_cases hi : i < info.desc_set_size <;> simp [hi]
    rw [hbuf, prepare_result_idem]
  · cases hds : ctx.descriptor_set with
    | some buf =>
      rw [prepare_dispatch_keep_some ctx n info desc_set gx gy gz buf hg hds] at h
      injection h with h
      subst h
      rw [prepare_dispatch_keep_some _ n info desc_set gx gy gz
        (fun i => if i < info.desc_set_size then some (desc_set i) else buf i)
        (by rw [prepare_result_desc_set_size]; omega)
        (prepare_result_descriptor_set _ _ _ _ _ _ _ _)]
      rw [prepare_result_desc_set_size]
      have hbuf : (fun i => if i < info.desc_set_size then some (desc_set i)
          else (fun i => if i < info.desc_set_size then some (desc_set i)
            else buf i) i) =
          (fun i => if i < info.desc_set_size then some (desc_set i)
            else buf i) := by
        funext i
        by_cases hi : i < info.desc_set_size <;> simp [hi]
      rw [hbuf, prepare_result_idem]
    | none =>
      by_cases hsz : info.desc_set_size = 0
      · rw [prepare_dispatch_keep_none ctx n info desc_set gx gy gz hg hds hsz] at h
        injection h with h
        subst h
        rw [prepare_dispatch_keep_none _ n info desc_set gx gy gz
          (by rw [prepare_result_desc_set_size]; omega)
          (prepare_result_descriptor_set _ _ _ _ _ _ _ _) hsz]
        rw [prepare_result_desc_set_size, prepare_result_idem]
      · rw [prepare_dispatch_fault ctx n info desc_set gx gy gz hg hds hsz] at h
        cases h

/-- The descriptor-set consistency invariant: a positive recorded size
implies a non-NULL descriptor-set pointer. -/
def DSInv (c : dispatch_context) : Prop :=
  0 < c.desc_set_size → c.descriptor_set ≠ none

/-- Claim C10: `alloc_dispatch_context` establishes the invariant
"`desc_set_size > 0` implies `descriptor_set` non-NULL" and
`prepare_dispatch` preserves it, but `free_dispatch_context` nulls the
pointer while leaving the stale `desc_set_size`, breaking the invariant;
consequently a later `prepare_dispatch` whose program needs a positive
descriptor-set size not exceeding the stale capacity skips the
reallocation and the copy targets the NULL pointer (undefined behaviour,
modelled as `none`). -/
theorem free_context_stale_desc_set_size :
    DSInv alloc_dispatch_context ∧
    (∀ ctx n info desc_set gx gy gz ctx', DSInv ctx →
      prepare_dispatch ctx n info desc_set gx gy gz = some ctx' →
      DSInv ctx') ∧
    (∀ ctx : dispatch_context,
      (free_dispatch_context ctx).descriptor_set = none ∧
      (free_dispatch_context ctx).desc_set_size = ctx.desc_set_size) ∧
    (∀ ctx : dispatch_context, 0 < ctx.desc_set_size →
      ¬ DSInv (free_dispatch_context ctx)) ∧
    (∀ (ctx : dispatch_context) n info desc_set gx gy gz,
      ctx.descriptor_set = none → 0 < info.desc_set_size →
      info.desc_set_size ≤ ctx.desc_set_size →
      prepare_dispatch ctx n info desc_set gx gy gz = none) := by
  refine ⟨?_, ?_, ?_, ?_, ?_⟩
  · intro h
    simp [alloc_dispatch_context] at h
  · intro ctx n info desc_set gx gy gz ctx' hinv h
    by_cases hg : ctx.desc_set_size < info.desc_set_size
    · rw [prepare_dispatch_grow ctx n info desc_set gx gy gz hg] at h
      injection h with h
      subst h
      intro _
      rw [prepare_result_descriptor_set]
      simp
    · cases hds : ctx.descriptor_set with
      | some buf =>
        rw [prepare_dispatch_keep_some ctx n info desc_set gx gy gz buf hg hds] at h
        injection h with h
        subst h
        intro _
        rw [prepare_result_descriptor_set]
        simp
      | none =>
        by_cases hsz : info.desc_set_size = 0
        · rw [prepare_dispatch_keep_none ctx n info desc_set gx gy gz hg hds hsz] at h
          injection h with h
          subst h
          intro hpos
          rw [prepare_result_desc_set_size] at hpos
          exact absurd hds (hinv hpos)
        · rw [prepare_dispatch_fault ctx n info desc_set gx gy gz hg hds hsz] at h
          cases h
  · intro ctx
    exact ⟨rfl, rfl⟩
  · intro ctx hpos hinv
    exact hinv hpos rfl
  · intro ctx n info desc_set gx gy gz hds hpos hle
    exact prepare_dispatch_fault ctx n info desc_set gx gy gz (by omega) hds
      (by omega)

/-- Concrete program info used by the prepare_dispatch witnesses. -/
def info_w : program_info :=
  { min_memory_size := 0, has_cbarriers := false, desc_set_size := 2,
    workgroup_size_x := 1, workgroup_size_y := 1, workgroup_size_z := 1,
    begin := 0, await := 0, destroy := 0 }

/-- Concrete descriptor-set bytes used by the prepare_dispatch witnesses. -/
def ds_w : Nat → Nat := fun i => i + 7

/-- The context produced by a concrete successful `prepare_dispatch` call. -/
def ctx_w : dispatch_context :=
  (prepare_dispatch alloc_dispatch_context 1 info_w ds_w 1 1 1).getD
    alloc_dispatch_context

/-- Witness for `prepare_descriptor_storage` at a concrete call. -/
theorem prepare_descriptor_storage_witness :
    (prepare_dispatch alloc_dispatch_context 1 info_w ds_w 1 1 1 =
      some ctx_w) ∧
    (ctx_w.desc_set_size =
      max alloc_dispatch_context.desc_set_size info_w.desc_set_size ∧
    alloc_dispatch_context.desc_set_size ≤ ctx_w.desc_set_size ∧
    (∀ i, i < info_w.desc_set_size →
      Option.map (fun b => b i) ctx_w.descriptor_set =
        some (some (ds_w i))) ∧
    (info_w.desc_set_size ≤ alloc_dispatch_context.desc_set_size →
      ctx_w.desc_set_size = alloc_dispatch_context.desc_set_size ∧
      ∀ buf0, alloc_dispatch_context.descriptor_set = some buf0 →
        ctx_w.descriptor_set = some (fun i =>
          if i < info_w.desc_set_size then some (ds_w i) else buf0 i))) :=
  ⟨rfl, prepare_descriptor_storage alloc_dispatch_context 1 info_w ds_w
    1 1 1 ctx_w rfl⟩

/-- Witness for `prepare_idempotent` at a concrete call. -/
theorem prepare_idempotent_witness :
    (prepare_dispatch alloc_dispatch_context 1 info_w ds_w 1 1 1 =
      some ctx_w) ∧
    prepare_dispatch ctx_w 1 info_w ds_w 1 1 1 = some ctx_w :=
  ⟨rfl, prepare_idempotent alloc_dispatch_context 1 info_w ds_w 1 1 1
    ctx_w rfl⟩

/-- Required alignment of image/shared memory (abi.h line 32). -/
def REQUIRED_MEMORY_ALIGNMENT : Nat := 16

/-- Mirror of `struct thread_context` (runtime.c lines 44-48).  `memory`
holds the address of the scratch shared-memory buffer (`none` = NULL);
allocation addresses are produced by an allocator oracle modelling
`posix_memalign`. -/
structure thread_context where
  routines : coroutines Nat
  memory_size : Nat
  memory : Option Nat

/-- Mirror of `alloc_thread_context` (runtime.c lines 124-129):
zero-initialized. -/
def alloc_thread_context : thread_context :=
  { routines := coroutines_init, memory_size := 0, memory := none }

/-- Mirror of the scratch-memory prologue of `dispatch_thread` (runtime.c
lines 200-209), run before any entry point is invoked: when the dispatch
needs more shared memory than the thread context has, the old buffer is
freed and a 16-byte-aligned buffer of `ctx->memory_size` bytes is
allocated through `malloc_align`, modelled by the allocator oracle
`alloc alignment size`. -/
def thread_grow_memory (alloc : Nat → Nat → Nat) (ctx_memory_size : Nat)
    (thread : thread_context) : thread_context :=
  if thread.memory_size < ctx_memory_size then
    { thread with memory := some (alloc 16 ctx_memory_size),
                  memory_size := ctx_memory_size }
  else thread

/-- Alignment invariant of the thread scratch buffer. -/
def MemAligned (t : thread_context) : Prop :=
  ∀ a, t.memory = some a → a % 16 = 0

theorem thread_grow_memory_mono (alloc : Nat → Nat → Nat) (m : Nat)
    (t : thread_context) :
    t.memory_size ≤ (thread_grow_memory alloc m t).memory_size := by
  rw [thread_grow_memory]
  split
  · simp only
    omega
  · exact Nat.le_refl _

/-- Claim C8: on every `dispatch_thread` call the scratch buffer is made at
least `ctx->memory_size` bytes large and 16-byte aligned, it is replaced
only when `ctx->memory_size` strictly exceeds the recorded size, and the
recorded size never decreases — per call and across any sequence of
successive calls on the same thread context. -/
theorem dispatch_thread_memory (alloc : Nat → Nat → Nat)
    (halign : ∀ al sz, alloc al sz % al = 0)
    (ctxms : Nat) (t : thread_context) :
    ctxms ≤ (thread_grow_memory alloc ctxms t).memory_size ∧
    t.memory_size ≤ (thread_grow_memory alloc ctxms t).memory_size ∧
    (¬ t.memory_size < ctxms → thread_grow_memory alloc ctxms t = t) ∧
    (t.memory_size < ctxms →
      (thread_grow_memory alloc ctxms t).memory = some (alloc 16 ctxms) ∧
      (thread_grow_memory alloc ctxms t).memory_size = ctxms) ∧
    (MemAligned t → MemAligned (thread_grow_memory alloc ctxms t)) ∧
    (∀ sizes : List Nat, t.memory_size ≤
      (sizes.foldl (fun th m => thread_grow_memory alloc m th) t).memory_size) := by
  refine ⟨?_, thread_grow_memory_mono alloc ctxms t, ?_, ?_, ?_, ?_⟩
  · rw [thread_grow_memory]
    split
    · simp only
      omega
    · omega
  · intro hle
    rw [thread_grow_memory, if_neg hle]
  · intro hlt
    rw [thread_grow_memory, if_pos hlt]
    exact ⟨rfl, rfl⟩
  · intro hal
    rw [thread_grow_memory]
    split
    · intro a ha
      simp only [Option.some.injEq] at ha
      rw [← ha]
      exact halign 16 ctxms
    · exact hal
  · intro sizes
    induction sizes generalizing t with
    | nil => exact Nat.le_refl _
    | cons s rest ih =>
      rw [List.foldl_cons]
      exact Nat.le_trans (thread_grow_memory_mono alloc s t)
        (ih (thread_grow_memory alloc s t))

/-- Constant allocator oracle used by witnesses: always returns address 0,
which satisfies every alignment. -/
def alloc_w : Nat → Nat → Nat := fun _ _ => 0

/-- Witness for `dispatch_thread_memory` at a concrete allocator, size and
thread context. -/
theorem dispatch_thread_memory_witness :
    (∀ al sz, alloc_w al sz % al = 0) ∧
    (5 ≤ (thread_grow_memory alloc_w 5 alloc_thread_context).memory_size ∧
    alloc_thread_context.memory_size ≤
      (thread_grow_memory alloc_w 5 alloc_thread_context).memory_size ∧
    (¬ alloc_thread_context.memory_size < 5 →
      thread_grow_memory alloc_w 5 alloc_thread_context =
        alloc_thread_context) ∧
    (alloc_thread_context.memory_size < 5 →
      (thread_grow_memory alloc_w 5 alloc_thread_context).memory =
        some (alloc_w 16 5) ∧
      (thread_grow_memory alloc_w 5 alloc_thread_context).memory_size = 5) ∧
    (MemAligned alloc_thread_context →
      MemAligned (thread_grow_memory alloc_w 5 alloc_thread_context)) ∧
    (∀ sizes : List Nat, alloc_thread_context.memory_size ≤
      (sizes.foldl (fun th m => thread_grow_memory alloc_w m th)
        alloc_thread_context).memory_size)) :=
  ⟨fun al sz => Nat.zero_mod al,
    dispatch_thread_memory alloc_w (fun al sz => Nat.zero_mod al) 5
      alloc_thread_context⟩

/-- Mirror of `struct image_descriptor` (abi.h lines 37-55).  Pointers are
modelled as addresses (`stencil_ptr` `none` = NULL); the C `int` fields are
modelled as `Int`. -/
structure image_descriptor where
  ptr : Nat
  width : Int
  height : Int
  depth : Int
  row_pitch_bytes : Int
  slice_pitch_bytes : Int
  sample_pitch_bytes : Int
  sample_count : Int
  size_in_bytes : Int
  stencil_ptr : Option Nat
  stencil_row_pitch_bytes : Int
  stencil_slice_pitch_bytes : Int
  stencil_sample_pitch_bytes : Int

/-- Bitwise complement of a 64-bit `size_t` value, as produced by the C
`~` operator after conversion. -/
def size_t_not (n : Nat) : Nat := 2 ^ 64 - 1 - n

/-- Mirror of `alloc_image_rgba` (runtime.c lines 149-164): the byte size
`width*height*4` (a non-negative `int`, converted to `size_t`) is rounded
up with `size = (size + 16 - 1) & ~(16 - 1)`, storage is allocated with
`malloc_align(REQUIRED_MEMORY_ALIGNMENT, size)` (the allocator oracle
`alloc`), and the descriptor fields are filled in over a zero-initialized
`{ 0 }` descriptor. -/
def alloc_image_rgba (alloc : Nat → Nat → Nat) (width height : Int) :
    image_descriptor :=
  let size : Nat := (width * height * 4).toNat
  let size : Nat := (size + 16 - 1) &&& size_t_not (16 - 1)
  let storage := alloc REQUIRED_MEMORY_ALIGNMENT size
  { ptr := storage, width := width, height := height, depth := 1,
    row_pitch_bytes := width * 4,
    slice_pitch_bytes := (size : Int), sample_pitch_bytes := (size : Int),
    sample_count := 1, size_in_bytes := (size : Int),
    stencil_ptr := none, stencil_row_pitch_bytes := 0,
    stencil_slice_pitch_bytes := 0, stencil_sample_pitch_bytes := 0 }

/-- Clearing the low four bits of a 64-bit value rounds it down to a
multiple of 16. -/
theorem land_mask_16 (x : Nat) (hx : x < 2 ^ 64) :
    x &&& (2 ^ 64 - 16) = x / 16 * 16 := by
  apply Nat.eq_of_testBit_eq
  intro i
  rw [Nat.testBit_land]
  have hm : (2 : Nat) ^ 64 - 16 = (2 ^ 60 - 1) <<< 4 := by
    rw [Nat.shiftLeft_eq] <;> norm_num
  have hr : x / 16 * 16 = (x >>> 4) <<< 4 := by
    rw [Nat.shiftRight_eq_div_pow, Nat.shiftLeft_eq] <;> norm_num
  rw [hm, hr, Nat.testBit_shiftLeft, Nat.testBit_shiftLeft]
  by_cases h4 : 4 ≤ i
  · have hge : (decide (i ≥ 4)) = true := by simp [h4]
    rw [hge, Nat.testBit_shiftRight, Nat.testBit_two_pow_sub_one]
    have hi4 : 4 + (i - 4) = i := by omega
    rw [hi4]
    by_cases h64 : i < 64
    · have : (decide (i - 4 < 60)) = true := by simp; omega
      rw [this]
      simp [Bool.and_comm]
    · have h1 : (decide (i - 4 < 60)) = false := by simp; omega
      have h2 : x.testBit i = false :=
        Nat.testBit_eq_false_of_lt
          (Nat.lt_of_lt_of_le hx (Nat.pow_le_pow_right (by omega) (by omega)))
      rw [h1, h2]
      simp
  · have hge : (decide (i ≥ 4)) = false := by simp [h4]
    rw [hge]
    simp

/-- Claim C9: for non-negative, representable `width*height*4`, the image
descriptor returned by `alloc_image_rgba` has `size_in_bytes` equal to
`width*height*4` rounded up to the next multiple of 16, a 16-byte aligned
buffer, `depth = 1`, `sample_count = 1`, `row_pitch_bytes = width*4` and
`slice_pitch_bytes = sample_pitch_bytes = size_in_bytes`. -/
theorem alloc_image_rgba_spec (alloc : Nat → Nat → Nat)
    (halign : ∀ al sz, alloc al sz % al = 0) (width height : Int)
    (hnn : 0 ≤ width * height * 4)
    (hrep : width * height * 4 < 2 ^ 31) :
    (16 : Int) ∣ (alloc_image_rgba alloc width height).size_in_bytes ∧
    width * height * 4 ≤ (alloc_image_rgba alloc width height).size_in_bytes ∧
    (alloc_image_rgba alloc width height).size_in_bytes <
      width * height * 4 + 16 ∧
    (alloc_image_rgba alloc width height).ptr % 16 = 0 ∧
    (alloc_image_rgba alloc width height).depth = 1 ∧
    (alloc_image_rgba alloc width height).sample_count = 1 ∧
    (alloc_image_rgba alloc width height).row_pitch_bytes = width * 4 ∧
    (alloc_image_rgba alloc width height).slice_pitch_bytes =
      (alloc_image_rgba alloc width height).size_in_bytes ∧
    (alloc_image_rgba alloc width height).sample_pitch_bytes =
      (alloc_image_rgba alloc width height).size_in_bytes := by
  have hnot : size_t_not (16 - 1) = 2 ^ 64 - 16 := by
    norm_num [size_t_not]
  have hlt : (width * height * 4).toNat + 16 - 1 < 2 ^ 64 := by omega
  have hmask : ((width * height * 4).toNat + 16 - 1) &&& size_t_not (16 - 1) =
      ((width * height * 4).toNat + 16 - 1) / 16 * 16 := by
    rw [hnot]
    exact land_mask_16 _ hlt
  have hd : alloc_image_rgba alloc width height =
      { ptr := alloc REQUIRED_MEMORY_ALIGNMENT
          (((width * height * 4).toNat + 16 - 1) / 16 * 16),
        width := width, height := height, depth := 1,
        row_pitch_bytes := width * 4,
        slice_pitch_bytes :=
          ((((width * height * 4).toNat + 16 - 1) / 16 * 16 : Nat) : Int),
        sample_pitch_bytes :=
          ((((width * height * 4).toNat + 16 - 1) / 16 * 16 : Nat) : Int),
        sample_count := 1,
        size_in_bytes :=
          ((((width * height * 4).toNat + 16 - 1) / 16 * 16 : Nat) : Int),
        stencil_ptr := none, stencil_row_pitch_bytes := 0,
        stencil_slice_pitch_bytes := 0, stencil_sample_pitch_bytes := 0 } := by
    rw [alloc_image_rgba]
    simp only [hmask]
  rw [hd]
  have hdm := Nat.div_add_mod ((width * height * 4).toNat + 16 - 1) 16
  have hmod := Nat.mod_lt ((width * height * 4).toNat + 16 - 1) (y := 16)
    (by omega)
  have hq : ((width * height * 4).toNat + 16 - 1) / 16 * 16 =
      16 * (((width * height * 4).toNat + 16 - 1) / 16) := by ring
  have htn : ((width * height * 4).toNat : Int) = width * height * 4 :=
    Int.toNat_of_nonneg hnn
  refine ⟨⟨((((width * height * 4).toNat + 16 - 1) / 16 : Nat) : Int), ?_⟩,
    ?_, ?_, halign _ _, rfl, rfl, rfl, rfl, rfl⟩
  · simp only
    exact_mod_cast hq
  · simp only
    rw [← htn]
    have : (width * height * 4).toNat ≤
        ((width * height * 4).toNat + 16 - 1) / 16 * 16 := by omega
    exact_mod_cast this
  · simp only
    rw [← htn]
    have : ((width * height * 4).toNat + 16 - 1) / 16 * 16 <
        (width * height * 4).toNat + 16 := by omega
    exact_mod_cast this

/-- Witness for `alloc_image_rgba_spec` at `width = 3`, `height = 2`. -/
theorem alloc_image_rgba_spec_witness :
    (∀ al sz, alloc_w al sz % al = 0) ∧ (0 : Int) ≤ 3 * 2 * 4 ∧
    (3 * 2 * 4 : Int) < 2 ^ 31 ∧
    ((16 : Int) ∣ (alloc_image_rgba alloc_w 3 2).size_in_bytes ∧
    (3 : Int) * 2 * 4 ≤ (alloc_image_rgba alloc_w 3 2).size_in_bytes ∧
    (alloc_image_rgba alloc_w 3 2).size_in_bytes < 3 * 2 * 4 + 16 ∧
    (alloc_image_rgba alloc_w 3 2).ptr % 16 = 0 ∧
    (alloc_image_rgba alloc_w 3 2).depth = 1 ∧
    (alloc_image_rgba alloc_w 3 2).sample_count = 1 ∧
    (alloc_image_rgba alloc_w 3 2).row_pitch_bytes = 3 * 4 ∧
    (alloc_image_rgba alloc_w 3 2).slice_pitch_bytes =
      (alloc_image_rgba alloc_w 3 2).size_in_bytes ∧
    (alloc_image_rgba alloc_w 3 2).sample_pitch_bytes =
      (alloc_image_rgba alloc_w 3 2).size_in_bytes) :=
  ⟨fun al sz => Nat.zero_mod al, by norm_num, by norm_num,
    alloc_image_rgba_spec alloc_w (fun al sz => Nat.zero_mod al) 3 2
      (by norm_num) (by norm_num)⟩

/-- Argument tuple of one `ctx->begin(...)` invocation in `dispatch_thread`
(runtime.c lines 228 and 232): workgroup coordinates, first subgroup index
and subgroup count. -/
structure begin_call where
  x : Nat
  y : Nat
  z : Nat
  subgroup : Nat
  subgroup_count : Nat

/-- The `begin` invocations `dispatch_thread` issues for one workgroup
(runtime.c lines 226-234): with control barriers, one call per subgroup
with subgroup count 1; otherwise a single call with subgroup index 0 and
the full subgroup count. -/
def spawn_calls (ctx : dispatch_context) (x y z : Nat) : List begin_call :=
  if ctx.has_cbarriers then
    (List.range ctx.data.subgroups_per_workgroup).map
      (fun subgroup =>
        { x := x, y := y, z := z, subgroup := subgroup, subgroup_count := 1 })
  else
    [{ x := x, y := y, z := z, subgroup := 0,
       subgroup_count := ctx.data.subgroups_per_workgroup }]

/-- All `begin` invocations issued by `dispatch_thread` for thread index
`thread_idx`, in call order: one spawn block per assigned workgroup index,
decomposed into coordinates as in runtime.c lines 220-225. -/
def dispatch_begin_calls (ctx : dispatch_context) (thread_idx : Nat) :
    List begin_call :=
  (assigned thread_idx ctx.nthreads
      (ctx.data.num_workgroups 0 * ctx.data.num_workgroups 1 *
        ctx.data.num_workgroups 2)).flatMap
    (fun i =>
      let xyz := decompose (ctx.data.num_workgroups 0)
        (ctx.data.num_workgroups 1) i
      spawn_calls ctx xyz.1 xyz.2.1 xyz.2.2)

/-- Execution state of one `dispatch_thread` worker.  `routines` is the
thread's coroutine queue; coroutine handles are modelled as fresh tokens
(the instrumented test program of the specification: `begin` allocates a
tagged token, `destroy` retires it).  `calls tok` counts the `await` calls
made on token `tok`, `begun`/`destroyed` log the handles returned by
`begin` and passed to `destroy`, `beginCalls` logs the `begin` arguments,
and `fault` records an uninitialized queue-slot read. -/
structure RunState where
  routines : coroutines Nat
  nextTok : Nat
  calls : Nat → Nat
  beginCalls : List begin_call
  begun : List Nat
  destroyed : List Nat
  fault : Bool

/-- Initial run state of a worker over a given thread context. -/
def init_run_state (t : thread_context) : RunState :=
  { routines := t.routines, nextTok := 0, calls := fun _ => 0,
    beginCalls := [], begun := [], destroyed := [], fault := false }

/-- One `coroutine r = ctx->begin(...); coroutines_push(&thread->routines, r)`
step (runtime.c lines 228-229 / 232-233): the kernel returns a fresh token,
which is pushed. -/
def spawn_one (st : RunState) (c : begin_call) : RunState :=
  { st with routines := coroutines_push st.routines st.nextTok,
            nextTok := st.nextTok + 1,
            beginCalls := st.beginCalls ++ [c],
            begun := st.begun ++ [st.nextTok] }

/-- All spawns for workgroup `i` (runtime.c lines 220-234). -/
def spawn_group (ctx : dispatch_context) (i : Nat) (st : RunState) : RunState :=
  let xyz := decompose (ctx.data.num_workgroups 0)
    (ctx.data.num_workgroups 1) i
  (spawn_calls ctx xyz.1 xyz.2.1 xyz.2.2).foldl spawn_one st

/-- The drain loop of `dispatch_thread` (runtime.c lines 235-243):
`while (coroutines_pop(&thread->routines, &r))` — await the popped
coroutine; on "still running" push it back, otherwise destroy it.  The
kernel oracle `B tok` is the number of await calls on `tok` that report
still-running before the final one reports finished (so every coroutine
finishes after finitely many awaits).  `fuel` bounds the number of loop
iterations; `none` means the fuel ran out. -/
def drain (B : Nat → Nat) : Nat → RunState → Option RunState
  | 0, _ => none
  | fuel + 1, st =>
    match coroutines_pop st.routines with
    | none => some st
    | some (none, q') => some { st with routines := q', fault := true }
    | some (some r, q') =>
      let c := st.calls r
      let st' := { st with routines := q',
                           calls := fun u => if u = r then c + 1 else st.calls u }
      if c < B r then
        drain B fuel { st' with routines := coroutines_push st'.routines r }
      else
        drain B fuel { st' with destroyed := st'.destroyed ++ [r] }

/-- The workgroup loop body of `dispatch_thread` (runtime.c lines 219-244)
over an explicit list of workgroup indices: spawn the workgroup's
coroutines, then drain the queue to completion before advancing. -/
def run_groups (B : Nat → Nat) (ctx : dispatch_context) (fuel : Nat) :
    List Nat → RunState → Option RunState
  | [], st => some st
  | i :: is, st =>
    match drain B fuel (spawn_group ctx i st) with
    | none => none
    | some st' => run_groups B ctx fuel is st'

/-- Mirror of `dispatch_thread` (runtime.c lines 199-245): grow the scratch
memory, then run the strided workgroup loop. -/
def dispatch_thread (alloc : Nat → Nat → Nat) (B : Nat → Nat)
    (ctx : dispatch_context) (thread_idx : Nat) (thread : thread_context)
    (fuel : Nat) : Option (thread_context × RunState) :=
  let thread := thread_grow_memory alloc ctx.memory_size thread
  (run_groups B ctx fuel
      (assigned thread_idx ctx.nthreads
        (ctx.data.num_workgroups 0 * ctx.data.num_workgroups 1 *
          ctx.data.num_workgroups 2))
      (init_run_state thread)).map
    (fun st => ({ thread with routines := st.routines }, st))

/-- Invariant of the drain/spawn machinery: `hs` is the logical queue
content (oldest first).  Queue tokens are distinct, were all returned by
`begin` (are below `nextTok`), have await budgets not yet exhausted;
`begun` is exactly the list of issued tokens; destroyed tokens are distinct
was-begun tokens not in the queue; and destroyed plus queued tokens account
exactly for the begun ones. -/
structure DInv (B : Nat → Nat) (hs : List Nat) (st : RunState) : Prop where
  qinv : qInv st.routines
  qcontent : qlist st.routines = hs.map some
  nodup : hs.Nodup
  bounded : ∀ tok ∈ hs, st.calls tok ≤ B tok
  fresh : ∀ tok, st.nextTok ≤ tok → st.calls tok = 0
  qfresh : ∀ tok ∈ hs, tok < st.nextTok
  begun_eq : st.begun = List.range st.nextTok
  destroyed_lt : ∀ tok ∈ st.destroyed, tok < st.nextTok
  destroyed_nodup : st.destroyed.Nodup
  destroyed_disjoint : ∀ tok ∈ st.destroyed, tok ∉ hs
  accounted : List.Perm (st.destroyed ++ hs) st.begun
  fault_false : st.fault = false

/-- The initial run state satisfies the invariant for every kernel
oracle. -/
theorem DInv_init_any (B : Nat → Nat) :
    DInv B [] (init_run_state alloc_thread_context) := by
  refine ⟨qInv_init, rfl, List.nodup_nil, ?_, ?_, ?_, rfl, ?_, List.nodup_nil,
    ?_, List.Perm.refl _, rfl⟩
  · intro tok h
    cases h
  · intro tok _h
    rfl
  · intro tok h
    cases h
  · intro tok h
    cases h
  · intro tok h
    cases h

theorem spawn_one_spec (B : Nat → Nat) (hs : List Nat) (st : RunState)
    (h : DInv B hs st) (c : begin_call) :
    DInv B (hs ++ [st.nextTok]) (spawn_one st c) ∧
    (spawn_one st c).nextTok = st.nextTok + 1 ∧
    (spawn_one st c).calls = st.calls ∧
    (spawn_one st c).destroyed = st.destroyed ∧
    (spawn_one st c).beginCalls = st.beginCalls ++ [c] := by
  obtain ⟨hq, hlist, _, _, _⟩ := coroutines_push_spec st.routines st.nextTok h.qinv
  refine ⟨⟨hq, ?_, ?_, ?_, ?_, ?_, ?_, ?_, h.destroyed_nodup, ?_, ?_,
    h.fault_false⟩, rfl, rfl, rfl, rfl⟩
  · rw [spawn_one] at *
    simp only at *
    rw [hlist, h.qcontent, List.map_append]
    rfl
  · refine List.Nodup.append h.nodup (List.nodup_singleton _) ?_
    intro tok htok hmem
    rw [List.mem_singleton] at hmem
    have := h.qfresh tok htok
    omega
  · intro tok htok
    rcases List.mem_append.mp htok with hin | hin
    · exact h.bounded tok hin
    · rw [List.mem_singleton] at hin
      rw [show (spawn_one st c).calls = st.calls from rfl, hin,
        h.fresh st.nextTok (Nat.le_refl _)]
      exact Nat.zero_le _
  · intro tok htok
    rw [show (spawn_one st c).calls = st.calls from rfl]
    exact h.fresh tok (by simp [spawn_one] at htok; omega)
  · intro tok htok
    rcases List.mem_append.mp htok with hin | hin
    · have := h.qfresh tok hin
      simp [spawn_one]
      omega
    · rw [List.mem_singleton] at hin
      subst hin
      simp [spawn_one]
  · rw [show (spawn_one st c).begun = st.begun ++ [st.nextTok] from rfl,
      h.begun_eq, show (spawn_one st c).nextTok = st.nextTok + 1 from rfl,
      List.range_succ]
  · intro tok htok
    have := h.destroyed_lt tok htok
    simp [spawn_one]
    omega
  · intro tok htok
    have hd := h.destroyed_disjoint tok htok
    have hlt := h.destroyed_lt tok htok
    intro hmem
    rcases List.mem_append.mp hmem with hin | hin
    · exact hd hin
    · rw [List.mem_singleton] at hin
      omega
  · rw [show (spawn_one st c).destroyed = st.destroyed from rfl,
      show (spawn_one st c).begun = st.begun ++ [st.nextTok] from rfl,
      ← List.append_assoc]
    exact h.accounted.append_right [st.nextTok]

theorem spawn_fold_spec (B : Nat → Nat) (cs : List begin_call) :
    ∀ hs st, DInv B hs st →
      DInv B (hs ++ List.range' st.nextTok cs.length) (cs.foldl spawn_one st) ∧
      (cs.foldl spawn_one st).nextTok = st.nextTok + cs.length ∧
      (cs.foldl spawn_one st).calls = st.calls ∧
      (cs.foldl spawn_one st).destroyed = st.destroyed ∧
      (cs.foldl spawn_one st).beginCalls = st.beginCalls ++ cs := by
  induction cs with
  | nil =>
    intro hs st h
    refine ⟨?_, by simp, rfl, rfl, by simp⟩
    simpa using h
  | cons c cs ih =>
    intro hs st h
    obtain ⟨h1, hn1, hc1, hd1, hb1⟩ := spawn_one_spec B hs st h c
    obtain ⟨h2, hn2, hc2, hd2, hb2⟩ := ih (hs ++ [st.nextTok]) (spawn_one st c) h1
    rw [List.foldl_cons]
    have hrw : (hs ++ [st.nextTok]) ++
        List.range' (spawn_one st c).nextTok cs.length =
        hs ++ List.range' st.nextTok (c :: cs).length := by
      rw [List.append_assoc, hn1, List.length_cons, List.range'_succ,
        List.singleton_append]
    rw [hrw] at h2
    refine ⟨h2, ?_, ?_, ?_, ?_⟩
    · rw [hn2, hn1, List.length_cons]
      omega
    · rw [hc2, hc1]
    · rw [hd2, hd1]
    · rw [hb2, hb1, List.append_assoc, List.singleton_append]

/-- Total correctness of the drain loop: from any state satisfying the
invariant with queue content `hs`, given fuel exceeding the total remaining
await budget, the loop terminates with an empty queue, no fault, unchanged
begin log, and exactly the queued tokens added to the destroyed log (each
once). -/
theorem drain_spec (B : Nat → Nat) :
    ∀ fuel hs st, DInv B hs st →
      (hs.map (fun tok => B tok + 1 - st.calls tok)).sum < fuel →
      ∃ st', drain B fuel st = some st' ∧ DInv B [] st' ∧
        st'.routines.start = st'.routines.endI ∧
        st'.nextTok = st.nextTok ∧
        st'.begun = st.begun ∧
        st'.beginCalls = st.beginCalls ∧
        List.Perm st'.destroyed (st.destroyed ++ hs) := by
  intro fuel
  induction fuel with
  | zero =>
    intro hs st _ hm
    exact absurd hm (Nat.not_lt_zero _)
  | succ fuel ih =>
    intro hs st h hm
    cases hs with
    | nil =>
      have hemp : coroutines_pop st.routines = none :=
        coroutines_pop_nil _ h.qinv (by rw [h.qcontent]; rfl)
      rw [drain]
      simp only [hemp]
      refine ⟨st, rfl, h, ?_, rfl, rfl, rfl, by simp⟩
      exact (qlist_nil_iff _ h.qinv).mp (by rw [h.qcontent]; rfl)
    | cons hd tl =>
      have hhdtl := h.nodup
      rw [List.nodup_cons] at hhdtl
      obtain ⟨hhd_tl, htl_nodup⟩ := hhdtl
      have hcons : qlist st.routines = some hd :: tl.map some := by
        rw [h.qcontent]; rfl
      obtain ⟨q', hpop, hq', hql', hcap, hend, hrout⟩ :=
        coroutines_pop_cons _ h.qinv (some hd) (tl.map some) hcons
      rw [drain]
      simp only [hpop]
      rw [List.map_cons, List.sum_cons] at hm
      by_cases hlt : st.calls hd < B hd
      · rw [if_pos hlt]
        obtain ⟨hq2, hl2, _, _, _⟩ := coroutines_push_spec q' hd hq'
        have hDInv2 : DInv B (tl ++ [hd])
            { st with
              routines := coroutines_push q' hd,
              calls := fun u => if u = hd then st.calls hd + 1 else st.calls u } := by
          refine ⟨hq2, ?_, ?_, ?_, ?_, ?_, h.begun_eq, h.destroyed_lt,
            h.destroyed_nodup, ?_, ?_, h.fault_false⟩
          · rw [hl2, hql', List.map_append]
            rfl
          · refine List.Nodup.append htl_nodup (List.nodup_singleton _) ?_
            intro tok htok hmem
            rw [List.mem_singleton] at hmem
            exact hhd_tl (hmem ▸ htok)
          · intro tok htok
            simp only
            rcases List.mem_append.mp htok with hin | hin
            · rw [if_neg (by intro he; exact hhd_tl (he ▸ hin))]
              exact h.bounded tok (List.mem_cons_of_mem hd hin)
            · rw [List.mem_singleton] at hin
              rw [hin, if_pos rfl]
              omega
          · intro tok htok
            simp only at htok ⊢
            have hne : tok ≠ hd := by
              have := h.qfresh hd (List.mem_cons_self hd tl)
              omega
            rw [if_neg hne]
            exact h.fresh tok htok
          · intro tok htok
            simp only
            rcases List.mem_append.mp htok with hin | hin
            · exact h.qfresh tok (List.mem_cons_of_mem hd hin)
            · rw [List.mem_singleton] at hin
              exact hin ▸ h.qfresh hd (List.mem_cons_self hd tl)
          · intro tok htok
            have := h.destroyed_disjoint tok htok
            intro hmem
            rcases List.mem_append.mp hmem with hin | hin
            · exact this (List.mem_cons_of_mem hd hin)
            · rw [List.mem_singleton] at hin
              exact this (hin ▸ List.mem_cons_self hd tl)
          · simp only
            refine List.Perm.trans ?_ h.accounted
            refine List.Perm.append_left st.destroyed ?_
            exact List.perm_append_singleton hd tl
        have hmap2 : (tl.map (fun tok => B tok + 1 -
            (fun u => if u = hd then st.calls hd + 1 else st.calls u) tok)) =
            tl.map (fun tok => B tok + 1 - st.calls tok) := by
          apply List.map_congr_left
          intro tok htok
          simp only
          rw [if_neg (by intro he; exact hhd_tl (he ▸ htok))]
        have hsum : (((tl ++ [hd]).map (fun tok => B tok + 1 -
            (fun u => if u = hd then st.calls hd + 1 else st.calls u) tok)).sum)
            = (tl.map (fun tok => B tok + 1 - st.calls tok)).sum +
              (B hd + 1 - (st.calls hd + 1)) := by
          rw [List.map_append, List.sum_append, hmap2]
          simp
        have hm2 : (((tl ++ [hd]).map (fun tok => B tok + 1 -
            (fun u => if u = hd then st.calls hd + 1 else st.calls u) tok)).sum)
            < fuel := by
          rw [hsum]
          omega
        obtain ⟨st', hdr, hD', hse', hn', hb', hbc', hperm'⟩ :=
          ih (tl ++ [hd]) _ hDInv2 hm2
        refine ⟨st', hdr, hD', hse', hn', hb', hbc', ?_⟩
        refine List.Perm.trans hperm' ?_
        refine List.Perm.trans (List.Perm.append_left st.destroyed
          (List.perm_append_singleton hd tl)) (List.Perm.refl _)
      · rw [if_neg hlt]
        have hcB : st.calls hd ≤ B hd :=
          h.bounded hd (List.mem_cons_self hd tl)
        have hDInv2 : DInv B tl
            { st with
              routines := q',
              calls := fun u => if u = hd then st.calls hd + 1 else st.calls u,
              destroyed := st.destroyed ++ [hd] } := by
          refine ⟨hq', hql', htl_nodup, ?_, ?_, ?_, h.begun_eq, ?_, ?_, ?_,
            ?_, h.fault_false⟩
          · intro tok htok
            simp only
            rw [if_neg (by intro he; exact hhd_tl (he ▸ htok))]
            exact h.bounded tok (List.mem_cons_of_mem hd htok)
          · intro tok htok
            simp only at htok ⊢
            have hne : tok ≠ hd := by
              have := h.qfresh hd (List.mem_cons_self hd tl)
              omega
            rw [if_neg hne]
            exact h.fresh tok htok
          · intro tok htok
            exact h.qfresh tok (List.mem_cons_of_mem hd htok)
          · intro tok htok
            simp only at htok
            rcases List.mem_append.mp htok with hin | hin
            · exact h.destroyed_lt tok hin
            · rw [List.mem_singleton] at hin
              exact hin ▸ h.qfresh hd (List.mem_cons_self hd tl)
          · simp only
            refine List.Nodup.append h.destroyed_nodup
              (List.nodup_singleton _) ?_
            intro tok htok hmem
            rw [List.mem_singleton] at hmem
            exact h.destroyed_disjoint tok htok
              (hmem ▸ List.mem_cons_self hd tl)
          · intro tok htok
            simp only at htok
            intro hmem
            rcases List.mem_append.mp htok with hin | hin
            · exact h.destroyed_disjoint tok hin
                (List.mem_cons_of_mem hd hmem)
            · rw [List.mem_singleton] at hin
              exact hhd_tl (hin ▸ hmem)
          · simp only
            rw [List.append_assoc, List.singleton_append]
            exact h.accounted
        have hmap2 : (tl.map (fun tok => B tok + 1 -
            (fun u => if u = hd then st.calls hd + 1 else st.calls u) tok)) =
            tl.map (fun tok => B tok + 1 - st.calls tok) := by
          apply List.map_congr_left
          intro tok htok
          simp only
          rw [if_neg (by intro he; exact hhd_tl (he ▸ htok))]
        have hm2 : ((tl.map (fun tok => B tok + 1 -
            (fun u => if u = hd then st.calls hd + 1 else st.calls u) tok)).sum)
            < fuel := by
          rw [hmap2]
          omega
        obtain ⟨st', hdr, hD', hse', hn', hb', hbc', hperm'⟩ :=
          ih tl _ hDInv2 hm2
        refine ⟨st', hdr, hD', hse', hn', hb', hbc', ?_⟩
        refine List.Perm.trans hperm' ?_
        simp only [List.append_assoc, List.singleton_append]
        exact List.Perm.refl _

theorem drain_mono (B : Nat → Nat) :
    ∀ fuel st st', drain B fuel st = some st' →
      ∀ fuel', fuel ≤ fuel' → drain B fuel' st = some st' := by
  intro fuel
  induction fuel with
  | zero =>
    intro st st' h
    simp [drain] at h
  | succ fuel ih =>
    intro st st' h fuel' hle
    cases fuel' with
    | zero => omega
    | succ f' =>
      rw [drain] at h ⊢
      cases hpop : coroutines_pop st.routines with
      | none =>
        simp only [hpop] at h ⊢
        exact h
      | some pr =>
        obtain ⟨v, q'⟩ := pr
        cases v with
        | none =>
          simp only [hpop] at h ⊢
          exact h
        | some r =>
          simp only [hpop] at h ⊢
          by_cases hc : st.calls r < B r
          · rw [if_pos hc] at h ⊢
            exact ih _ _ h f' (Nat.le_of_succ_le_succ hle)
          · rw [if_neg hc] at h ⊢
            exact ih _ _ h f' (Nat.le_of_succ_le_succ hle)

theorem run_groups_mono (B : Nat → Nat) (ctx : dispatch_context) :
    ∀ (is : List Nat) fuel st st', run_groups B ctx fuel is st = some st' →
      ∀ fuel', fuel ≤ fuel' → run_groups B ctx fuel' is st = some st' := by
  intro is
  induction is with
  | nil =>
    intro fuel st st' h fuel' _
    rw [run_groups] at h ⊢
    exact h
  | cons i is ih =>
    intro fuel st st' h fuel' hle
    rw [run_groups] at h ⊢
    cases hdr : drain B fuel (spawn_group ctx i st) with
    | none =>
      rw [hdr] at h
      cases h
    | some st1 =>
      rw [hdr] at h
      rw [drain_mono B fuel _ st1 hdr fuel' hle]
      exact ih fuel st1 st' h fuel' hle

/-- Total correctness of the workgroup loop over any workgroup index list:
sufficient fuel exists making the loop complete with an empty queue, the
invariant intact, and the begin log extended by exactly the per-workgroup
spawn blocks in order. -/
theorem run_groups_spec (B : Nat → Nat) (ctx : dispatch_context) :
    ∀ (is : List Nat) (st : RunState), DInv B [] st →
      ∃ fuel st', run_groups B ctx fuel is st = some st' ∧ DInv B [] st' ∧
        st'.routines.start = st'.routines.endI ∧
        st'.beginCalls = st.beginCalls ++ is.flatMap (fun i =>
          let xyz := decompose (ctx.data.num_workgroups 0)
            (ctx.data.num_workgroups 1) i
          spawn_calls ctx xyz.1 xyz.2.1 xyz.2.2) := by
  intro is
  induction is with
  | nil =>
    intro st h
    refine ⟨1, st, rfl, h, ?_, by simp⟩
    exact (qlist_nil_iff _ h.qinv).mp (by rw [h.qcontent]; rfl)
  | cons i is ih =>
    intro st h
    obtain ⟨h1, hn1, hc1, hd1, hb1⟩ := spawn_fold_spec B
      (spawn_calls ctx
        (decompose (ctx.data.num_workgroups 0) (ctx.data.num_workgroups 1) i).1
        (decompose (ctx.data.num_workgroups 0) (ctx.data.num_workgroups 1) i).2.1
        (decompose (ctx.data.num_workgroups 0) (ctx.data.num_workgroups 1) i).2.2)
      [] st h
    rw [List.nil_append] at h1
    obtain ⟨st2, hdr2, hD2, hse2, hn2, hbgn2, hbc2, hperm2⟩ :=
      drain_spec B
        (((List.range' st.nextTok
          (spawn_calls ctx
            (decompose (ctx.data.num_workgroups 0)
              (ctx.data.num_workgroups 1) i).1
            (decompose (ctx.data.num_workgroups 0)
              (ctx.data.num_workgroups 1) i).2.1
            (decompose (ctx.data.num_workgroups 0)
              (ctx.data.num_workgroups 1) i).2.2).length).map
          (fun tok => B tok + 1 -
            ((spawn_calls ctx
              (decompose (ctx.data.num_workgroups 0)
                (ctx.data.num_workgroups 1) i).1
              (decompose (ctx.data.num_workgroups 0)
                (ctx.data.num_workgroups 1) i).2.1
              (decompose (ctx.data.num_workgroups 0)
                (ctx.data.num_workgroups 1) i).2.2).foldl spawn_one st).calls
              tok)).sum + 1)
        _ _ h1 (Nat.lt_succ_self _)
    obtain ⟨fuel3, st3, hrun3, hD3, hse3, hbc3⟩ := ih st2 hD2
    refine ⟨max (((List.range' st.nextTok
          (spawn_calls ctx
            (decompose (ctx.data.num_workgroups 0)
              (ctx.data.num_workgroups 1) i).1
            (decompose (ctx.data.num_workgroups 0)
              (ctx.data.num_workgroups 1) i).2.1
            (decompose (ctx.data.num_workgroups 0)
              (ctx.data.num_workgroups 1) i).2.2).length).map
          (fun tok => B tok + 1 -
            ((spawn_calls ctx
              (decompose (ctx.data.num_workgroups 0)
                (ctx.data.num_workgroups 1) i).1
              (decompose (ctx.data.num_workgroups 0)
                (ctx.data.num_workgroups 1) i).2.1
              (decompose (ctx.data.num_workgroups 0)
                (ctx.data.num_workgroups 1) i).2.2).foldl spawn_one st).calls
              tok)).sum + 1) fuel3, st3, ?_, hD3, hse3, ?_⟩
    · rw [run_groups]
      rw [show spawn_group ctx i st =
        (spawn_calls ctx
          (decompose (ctx.data.num_workgroups 0)
            (ctx.data.num_workgroups 1) i).1
          (decompose (ctx.data.num_workgroups 0)
            (ctx.data.num_workgroups 1) i).2.1
          (decompose (ctx.data.num_workgroups 0)
            (ctx.data.num_workgroups 1) i).2.2).foldl spawn_one st from rfl]
      rw [drain_mono B _ _ st2 hdr2 _ (Nat.le_max_left _ _)]
      exact run_groups_mono B ctx is fuel3 st2 st3 hrun3 _
        (Nat.le_max_right _ _)
    · rw [hbc3, hbc2, hb1, List.flatMap_cons, List.append_assoc]

/-- Claim C1: for every dispatch whose coroutines all report finished after
finitely many await calls (`B tok` still-running awaits before the final
one), and for every prefix of the thread's assigned workgroup list, the
drain loop terminates (some fuel suffices), no uninitialized slot is read,
the coroutine queue is empty (`start = end`) before the loop advances past
the prefix, every handle returned by `begin` is passed to `destroy` exactly
once (the destroyed log is duplicate-free and a permutation of the begun
log), and the begun log is exactly the issued fresh handles. -/
theorem dispatch_destroy_exactly_once (B : Nat → Nat)
    (ctx : dispatch_context) (thread_idx : Nat) (hT : 1 ≤ ctx.nthreads)
    (npre : Nat) :
    ∃ fuel st',
      run_groups B ctx fuel
        ((assigned thread_idx ctx.nthreads
          (ctx.data.num_workgroups 0 * ctx.data.num_workgroups 1 *
            ctx.data.num_workgroups 2)).take npre)
        (init_run_state alloc_thread_context) = some st' ∧
      st'.fault = false ∧
      st'.routines.start = st'.routines.endI ∧
      st'.begun = List.range st'.nextTok ∧
      st'.destroyed.Nodup ∧
      List.Perm st'.destroyed st'.begun := by
  obtain ⟨fuel, st', hrun, hD, hse, _⟩ :=
    run_groups_spec B ctx
      ((assigned thread_idx ctx.nthreads
        (ctx.data.num_workgroups 0 * ctx.data.num_workgroups 1 *
          ctx.data.num_workgroups 2)).take npre)
      (init_run_state alloc_thread_context) (DInv_init_any B)
  exact ⟨fuel, st', hrun, hD.fault_false, hse, hD.begun_eq,
    hD.destroyed_nodup, by simpa using hD.accounted⟩

/-- Witness for `dispatch_destroy_exactly_once`: kernel oracle with one
still-running await per coroutine, the concrete prepared context `ctx_w`,
thread 0, prefix length 2. -/
theorem dispatch_destroy_exactly_once_witness :
    1 ≤ ctx_w.nthreads ∧
    (∃ fuel st',
      run_groups (fun _ => 1) ctx_w fuel
        ((assigned 0 ctx_w.nthreads
          (ctx_w.data.num_workgroups 0 * ctx_w.data.num_workgroups 1 *
            ctx_w.data.num_workgroups 2)).take 2)
        (init_run_state alloc_thread_context) = some st' ∧
      st'.fault = false ∧
      st'.routines.start = st'.routines.endI ∧
      st'.begun = List.range st'.nextTok ∧
      st'.destroyed.Nodup ∧
      List.Perm st'.destroyed st'.begun) :=
  ⟨by decide, dispatch_destroy_exactly_once (fun _ => 1) ctx_w 0 (by decide) 2⟩

theorem drain_beginCalls (B : Nat → Nat) :
    ∀ fuel st st', drain B fuel st = some st' →
      st'.beginCalls = st.beginCalls := by
  intro fuel
  induction fuel with
  | zero =>
    intro st st' h
    simp [drain] at h
  | succ fuel ih =>
    intro st st' h
    rw [drain] at h
    cases hpop : coroutines_pop st.routines with
    | none =>
      simp only [hpop] at h
      injection h with h
      rw [← h]
    | some pr =>
      obtain ⟨v, q'⟩ := pr
      cases v with
      | none =>
        simp only [hpop] at h
        injection h with h
        rw [← h]
      | some r =>
        simp only [hpop] at h
        by_cases hc : st.calls r < B r
        · rw [if_pos hc] at h
          exact (ih _ _ h).trans rfl
        · rw [if_neg hc] at h
          exact (ih _ _ h).trans rfl

theorem spawn_fold_beginCalls (cs : List begin_call) :
    ∀ st : RunState, (cs.foldl spawn_one st).beginCalls =
      st.beginCalls ++ cs := by
  induction cs with
  | nil =>
    intro st
    simp
  | cons c cs ih =>
    intro st
    rw [List.foldl_cons, ih (spawn_one st c),
      show (spawn_one st c).beginCalls = st.beginCalls ++ [c] from rfl,
      List.append_assoc, List.singleton_append]

theorem run_groups_beginCalls (B : Nat → Nat) (ctx : dispatch_context) :
    ∀ (is : List Nat) fuel st st', run_groups B ctx fuel is st = some st' →
      st'.beginCalls = st.beginCalls ++ is.flatMap (fun i =>
        let xyz := decompose (ctx.data.num_workgroups 0)
          (ctx.data.num_workgroups 1) i
        spawn_calls ctx xyz.1 xyz.2.1 xyz.2.2) := by
  intro is
  induction is with
  | nil =>
    intro fuel st st' h
    rw [run_groups] at h
    injection h with h
    rw [← h]
    simp
  | cons i is ih =>
    intro fuel st st' h
    rw [run_groups] at h
    cases hdr : drain B fuel (spawn_group ctx i st) with
    | none =>
      rw [hdr] at h
      cases h
    | some st1 =>
      rw [hdr] at h
      have h1 := drain_beginCalls B fuel _ st1 hdr
      have h0 : (spawn_group ctx i st).beginCalls = st.beginCalls ++
          spawn_calls ctx
            (decompose (ctx.data.num_workgroups 0)
              (ctx.data.num_workgroups 1) i).1
            (decompose (ctx.data.num_workgroups 0)
              (ctx.data.num_workgroups 1) i).2.1
            (decompose (ctx.data.num_workgroups 0)
              (ctx.data.num_workgroups 1) i).2.2 :=
        spawn_fold_beginCalls _ st
      rw [ih fuel st1 st' h, h1, h0, List.flatMap_cons, List.append_assoc]

theorem spawn_calls_length (ctx : dispatch_context) (x y z : Nat) :
    (spawn_calls ctx x y z).length =
      if ctx.has_cbarriers then ctx.data.subgroups_per_workgroup else 1 := by
  rw [spawn_calls]
  split <;> simp

theorem flatMap_length_const {α β : Type} (f : α → List β) (c : Nat)
    (hf : ∀ a, (f a).length = c) :
    ∀ l : List α, (l.flatMap f).length = l.length * c := by
  intro l
  induction l with
  | nil => simp
  | cons a l ih =>
    rw [List.flatMap_cons, List.length_append, hf a, ih, List.length_cons]
    ring

theorem prepare_dispatch_shape (ctx : dispatch_context) (n : Nat)
    (info : program_info) (desc_set : Nat → Nat) (gx gy gz : Nat)
    (ctx' : dispatch_context)
    (h : prepare_dispatch ctx n info desc_set gx gy gz = some ctx') :
    ∃ ds sz, ctx' = prepare_result ctx n info gx gy gz ds sz := by
  by_cases hg : ctx.desc_set_size < info.desc_set_size
  · rw [prepare_dispatch_grow ctx n info desc_set gx gy gz hg] at h
    injection h with h
    exact ⟨_, _, h.symm⟩
  · cases hds : ctx.descriptor_set with
    | some buf =>
      rw [prepare_dispatch_keep_some ctx n info desc_set gx gy gz buf hg hds]
        at h
      injection h with h
      exact ⟨_, _, h.symm⟩
    | none =>
      by_cases hsz : info.desc_set_size = 0
      · rw [prepare_dispatch_keep_none ctx n info desc_set gx gy gz hg hds hsz]
          at h
        injection h with h
        exact ⟨_, _, h.symm⟩
      · rw [prepare_dispatch_fault ctx n info desc_set gx gy gz hg hds hsz]
          at h
        cases h

theorem sum_map_const_nat (l : List Nat) (c : Nat) :
    ((l.map (fun _ => c)).sum) = l.length * c := by
  induction l with
  | nil => simp
  | cons a l ih =>
    rw [List.map_cons, List.sum_cons, ih, List.length_cons]
    ring

/-- Claim C2: after `prepare_dispatch`, `subgroups_per_workgroup` is the
rounded-up quotient of the workgroup invocation count by the fixed SIMD
width 4; summed over all thread indices `0..nthreads-1`, `dispatch_thread`
issues exactly `gx*gy*gz` begin calls (one per workgroup, subgroup index 0,
subgroup count `subgroups_per_workgroup`) when `has_cbarriers` is false,
and exactly `gx*gy*gz*subgroups_per_workgroup` begin calls (one per
workgroup/subgroup pair, subgroup count 1) when `has_cbarriers` is true;
and the begin log of any completed `dispatch_thread` run equals this
per-thread call list. -/
theorem dispatch_begin_count (ctx : dispatch_context) (n : Nat)
    (info : program_info) (desc_set : Nat → Nat) (gx gy gz : Nat)
    (ctx' : dispatch_context) (hn : 1 ≤ n)
    (h : prepare_dispatch ctx n info desc_set gx gy gz = some ctx') :
    ctx'.data.subgroups_per_workgroup =
      (info.workgroup_size_x * info.workgroup_size_y * info.workgroup_size_z +
        4 - 1) / 4 ∧
    ctx'.data.invocations_per_subgroup = 4 ∧
    (∑ t ∈ Finset.range n, (dispatch_begin_calls ctx' t).length) =
      (if info.has_cbarriers then
        gx * gy * gz *
          ((info.workgroup_size_x * info.workgroup_size_y *
            info.workgroup_size_z + 4 - 1) / 4)
      else gx * gy * gz) ∧
    (∀ t : Nat, ∀ c ∈ dispatch_begin_calls ctx' t,
      (info.has_cbarriers = true → c.subgroup_count = 1 ∧
        c.subgroup < (info.workgroup_size_x * info.workgroup_size_y *
          info.workgroup_size_z + 4 - 1) / 4) ∧
      (info.has_cbarriers = false → c.subgroup = 0 ∧
        c.subgroup_count = (info.workgroup_size_x * info.workgroup_size_y *
          info.workgroup_size_z + 4 - 1) / 4)) ∧
    (∀ (B : Nat → Nat) (t fuel : Nat) (st' : RunState),
      run_groups B ctx' fuel
        (assigned t ctx'.nthreads
          (ctx'.data.num_workgroups 0 * ctx'.data.num_workgroups 1 *
            ctx'.data.num_workgroups 2))
        (init_run_state alloc_thread_context) = some st' →
      st'.beginCalls = dispatch_begin_calls ctx' t) := by
  obtain ⟨ds, sz, hshape⟩ :=
    prepare_dispatch_shape ctx n info desc_set gx gy gz ctx' h
  subst hshape
  have hf : ∀ i : Nat,
      ((fun i =>
        let xyz := decompose
          ((prepare_result ctx n info gx gy gz ds sz).data.num_workgroups 0)
          ((prepare_result ctx n info gx gy gz ds sz).data.num_workgroups 1) i
        spawn_calls (prepare_result ctx n info gx gy gz ds sz)
          xyz.1 xyz.2.1 xyz.2.2) i).length =
      (if info.has_cbarriers then
        (info.workgroup_size_x * info.workgroup_size_y *
          info.workgroup_size_z + 4 - 1) / 4
      else 1) :=
    fun i => (spawn_calls_length _ _ _ _).trans rfl
  have hlen : ∀ t : Nat,
      (dispatch_begin_calls (prepare_result ctx n info gx gy gz ds sz)
        t).length =
      (assigned t n (gx * gy * gz)).length *
        (if info.has_cbarriers then
          (info.workgroup_size_x * info.workgroup_size_y *
            info.workgroup_size_z + 4 - 1) / 4
        else 1) :=
    fun t => (flatMap_length_const _ _ hf _).trans rfl
  refine ⟨rfl, rfl, ?_, ?_, ?_⟩
  · rw [Finset.sum_congr rfl (fun t _ => hlen t), ← Finset.sum_mul,
      assigned_length_sum n (gx * gy * gz) hn]
    cases hcb : info.has_cbarriers
    · simp
    · simp
  · intro t c hc
    rw [dispatch_begin_calls] at hc
    rw [List.mem_flatMap] at hc
    obtain ⟨i, _, hci⟩ := hc
    have hPcb : (prepare_result ctx n info gx gy gz ds sz).has_cbarriers =
        info.has_cbarriers := rfl
    cases hcb : info.has_cbarriers
    · rw [spawn_calls, hPcb, hcb] at hci
      rw [if_neg (by simp)] at hci
      rw [List.mem_singleton] at hci
      subst hci
      constructor
      · intro habs
        cases habs
      · intro _
        exact ⟨rfl, rfl⟩
    · rw [spawn_calls, hPcb, hcb] at hci
      rw [if_pos rfl] at hci
      rw [List.mem_map] at hci
      obtain ⟨sg, hsg, hceq⟩ := hci
      subst hceq
      rw [List.mem_range] at hsg
      constructor
      · intro _
        exact ⟨rfl, hsg⟩
      · intro habs
        cases habs
  · intro B t fuel st' hrun
    have hbc := run_groups_beginCalls B
      (prepare_result ctx n info gx gy gz ds sz) _ fuel _ st' hrun
    rw [hbc]
    rfl

/-- Witness for `dispatch_begin_count` at a concrete prepared context. -/
theorem dispatch_begin_count_witness :
    1 ≤ 1 ∧
    (prepare_dispatch alloc_dispatch_context 1 info_w ds_w 1 1 1 =
      some ctx_w) ∧
    (ctx_w.data.subgroups_per_workgroup =
      (info_w.workgroup_size_x * info_w.workgroup_size_y *
        info_w.workgroup_size_z + 4 - 1) / 4 ∧
    ctx_w.data.invocations_per_subgroup = 4 ∧
    (∑ t ∈ Finset.range 1, (dispatch_begin_calls ctx_w t).length) =
      (if info_w.has_cbarriers then
        1 * 1 * 1 *
          ((info_w.workgroup_size_x * info_w.workgroup_size_y *
            info_w.workgroup_size_z + 4 - 1) / 4)
      else 1 * 1 * 1) ∧
    (∀ t : Nat, ∀ c ∈ dispatch_begin_calls ctx_w t,
      (info_w.has_cbarriers = true → c.subgroup_count = 1 ∧
        c.subgroup < (info_w.workgroup_size_x * info_w.workgroup_size_y *
          info_w.workgroup_size_z + 4 - 1) / 4) ∧
      (info_w.has_cbarriers = false → c.subgroup = 0 ∧
        c.subgroup_count = (info_w.workgroup_size_x * info_w.workgroup_size_y *
          info_w.workgroup_size_z + 4 - 1) / 4)) ∧
    (∀ (B : Nat → Nat) (t fuel : Nat) (st' : RunState),
      run_groups B ctx_w fuel
        (assigned t ctx_w.nthreads
          (ctx_w.data.num_workgroups 0 * ctx_w.data.num_workgroups 1 *
            ctx_w.data.num_workgroups 2))
        (init_run_state alloc_thread_context) = some st' →
      st'.beginCalls = dispatch_begin_calls ctx_w t)) :=
  ⟨Nat.le_refl 1, rfl,
    dispatch_begin_count alloc_dispatch_context 1 info_w ds_w 1 1 1 ctx_w
      (Nat.le_refl 1) rfl⟩
